import Mathlib

/-!
Verification development for the problemgen expression-combination engine.

The Python source keeps an `Expression` as two parallel term lists
(`unreduced_terms`, `reduced_terms`) plus an operator-token list
(`operations`), and collapses such a sequence to a single term with the
recursive method `combine_terms`.  Operator tokens are Python strings; we
model them as lists of characters.  The symbolic engine (sympy) is an
external collaborator and is modelled as a record of opaque binary
operations.  Python list primitives (negative indices, slice deletion,
`list.insert`, `str.replace`) are modelled by small helper functions that
reproduce their exact semantics on the index ranges the source uses.
-/

/-- An operator token: the contents of one entry of `operations`
(a Python string such as `''`, `'+'`, `')*('`). -/
abbrev Tok := List Char

/-- Number of grouping-mark characters inside one token. -/
def parens (t : Tok) : Nat := t.count '(' + t.count ')'

/-- Total number of grouping-mark characters in an operator list.
Used as (the first component of) the termination measure of
`combine_terms`. -/
def parenWeight (ops : List Tok) : Nat := (ops.map parens).sum

/-- `charLocs c ops` models the Python comprehension
`[i for i in range(len(ops)) if c in ops[i]]`: the (increasing) list of
indices whose token contains the character `c`. -/
def charLocs (c : Char) : List Tok → List Nat
  | [] => []
  | t :: ts => (if c ∈ t then [0] else []) ++ (charLocs c ts).map (· + 1)

/-- Python `del l[a:b]`: removes the elements with indices in `[a, b)`
(no-op when `b ≤ a`, clamped at the end of the list). -/
def pyDelSlice (a b : Nat) (l : List α) : List α := l.take a ++ l.drop (max a b)

/-- Python `l.insert(i, x)` (the insertion position is clamped to the
length, as in Python). -/
def pyInsert (i : Nat) (x : α) (l : List α) : List α := l.take i ++ x :: l.drop i

/-- Python `s.replace(c, '')`: removes every occurrence of the character
`c` from a token. -/
def strip (c : Char) (t : Tok) : Tok := t.filter (fun d => !(d == c))

/-- Python `l.index(x)` for token lists: index of the first occurrence
(only ever used when `x ∈ l`, as in the source). -/
def pyIndexOf (x : Tok) : List Tok → Nat
  | [] => 0
  | t :: ts => if t = x then 0 else pyIndexOf x ts + 1

/-- The in-place pair `terms[loc] = f(terms[loc-1], terms[loc]);
del terms[loc-1]` used by every arithmetic branch of `combine_terms`.
When `loc = 0`, Python's negative indexing makes `terms[loc-1]` the last
element, and `del terms[loc-1]` removes the last element.  `none` models
an `IndexError` (out-of-range access). -/
def pyMerge (f : α → α → α) (loc : Nat) (terms : List α) : Option (List α) :=
  if loc = 0 then
    match terms with
    | [] => none
    | t :: ts => some ((f ((t :: ts).getLastD t) t :: ts).dropLast)
  else
    match terms.drop (loc - 1) with
    | a :: b :: rest => some (terms.take (loc - 1) ++ f a b :: rest)
    | _ => none

/-- The scan for the closing mark nearest after the last opening mark
(`closest_dist = 10000; closest_loc = -1; for r in right_most_locs: ...`).
The first component is Python's `closest_dist`; `none` plays the role of
the `-1` sentinel. -/
def closestLoc (L : Nat) (rlocs : List Nat) : Int × Option Nat :=
  rlocs.foldl (fun (acc : Int × Option Nat) (r : Nat) =>
    if 0 < (r : Int) - (L : Int) ∧ (r : Int) - (L : Int) < acc.1 then
      ((r : Int) - (L : Int), some r)
    else acc) (10000, none)

/-- The sub-sequence of terms strictly inside a grouping,
`terms[L:c]`. -/
def groupSubTerms (L c : Nat) (terms : List α) : List α := (terms.drop L).take (c - L)

/-- The operator list handed to the recursive call on a grouping,
`[''] + ops[L+1:c] + ['']`. -/
def groupSubOps (L c : Nat) (ops : List Tok) : List Tok :=
  [] :: ((ops.drop (L + 1)).take (c - (L + 1))) ++ [[]]

/-- Splicing the combined term of a grouping back into the outer term
list: `del terms[L:c]; terms.insert(L, x)`. -/
def groupSpliceTerms (L c : Nat) (x : α) (terms : List α) : List α :=
  pyInsert L x (pyDelSlice L c terms)

/-- First two statements of the splice of the outer operator list after a
grouping was resolved: `del ops[L+1:c]; ops[L] = ops[L].replace('(', '')`. -/
def groupSpliceOps1 (L c : Nat) (ops : List Tok) : List Tok :=
  (pyDelSlice (L + 1) c ops).set L (strip '(' ((pyDelSlice (L + 1) c ops).getD L []))

/-- Full splice of the outer operator list after a grouping was resolved:
`del ops[L+1:c]; ops[L] = ops[L].replace('(', '');
ops[L+1] = ops[L+1].replace(')', '')`. -/
def groupSpliceOps (L c : Nat) (ops : List Tok) : List Tok :=
  (groupSpliceOps1 L c ops).set (L + 1) (strip ')' ((groupSpliceOps1 L c ops).getD (L + 1) []))

/-- The narrow value interface of the external symbolic engine (sympy):
the five binary operations, full expansion, and the test `value == 0`
used by `zero_clean`. -/
structure Engine (α : Type) where
  add : α → α → α
  sub : α → α → α
  mul : α → α → α
  div : α → α → α
  pow : α → α → α
  expand : α → α
  isZero : α → Bool

/-- Outcome of `combine_terms`.  Python signals the two assertion groups
with `AssertionError`; the spec's taxonomy distinguishes them as
`InvariantViolation` (length mismatch) and `UnbalancedGroupingError`
(grouping checks).  `indexErr` models an `IndexError` from an
out-of-range term access, and `none` models the implicit `return None`
when every case falls through. -/
inductive CRes (α : Type) where
  | ok : α → CRes α
  | invariantErr : CRes α
  | unbalanced : CRes α
  | indexErr : CRes α
  | none : CRes α
deriving DecidableEq

/-! ### Facts about the helper functions, used first for termination -/

theorem charLocs_mem {c : Char} :
    ∀ {l : List Tok} {n : Nat}, n ∈ charLocs c l → n < l.length ∧ c ∈ l.getD n [] := by
  intro l
  induction l with
  | nil => intro n h; simp [charLocs] at h
  | cons t ts ih =>
      intro n h
      simp only [charLocs, List.mem_append] at h
      rcases h with h | h
      · by_cases hc : c ∈ t
        · simp [hc] at h
          subst h
          simpa using hc
        · simp [hc] at h
      · rcases List.mem_map.1 h with ⟨m, hm, rfl⟩
        rcases ih hm with ⟨h1, h2⟩
        exact ⟨by simpa using Nat.succ_lt_succ h1, by simpa using h2⟩

theorem charLocs_eq_nil {c : Char} :
    ∀ {l : List Tok}, (∀ t ∈ l, c ∉ t) → charLocs c l = [] := by
  intro l
  induction l with
  | nil => intro _; rfl
  | cons t ts ih =>
      intro h
      have ht : c ∉ t := h t (by simp)
      have hts : charLocs c ts = [] := ih (fun u hu => h u (by simp [hu]))
      simp [charLocs, ht, hts]

theorem charLocs_nil_forall {c : Char} :
    ∀ {l : List Tok}, charLocs c l = [] → ∀ t ∈ l, c ∉ t := by
  intro l
  induction l with
  | nil => intro _ t ht; simp at ht
  | cons t ts ih =>
      intro h u hu
      by_cases hc : c ∈ t
      · simp [charLocs, hc] at h
      · simp [charLocs, hc, List.map_eq_nil_iff] at h
        rcases List.mem_cons.1 hu with rfl | hu
        · exact hc
        · exact ih (by simp [h]) u hu

theorem getLastD_mem {l : List Nat} (d : Nat) (h : l ≠ []) : l.getLastD d ∈ l := by
  induction l generalizing d with
  | nil => exact absurd rfl h
  | cons a as ih =>
      rw [List.getLastD_cons]
      cases as with
      | nil => simp [List.getLastD]
      | cons b bs => exact List.mem_cons_of_mem a (ih a (by simp))

theorem parens_pos_of_lparen {t : Tok} (h : '(' ∈ t) : 0 < parens t := by
  have : 0 < t.count '(' := List.count_pos_iff.2 h
  unfold parens; omega

theorem count_filter_ne (c x : Char) (hx : c ≠ x) :
    ∀ t : Tok, (t.filter (fun d => !(d == x))).count c = t.count c := by
  intro t
  induction t with
  | nil => rfl
  | cons a as ih =>
      by_cases ha : a = x
      · subst ha
        simp only [List.filter_cons, beq_self_eq_true, Bool.not_true, Bool.false_eq_true,
          if_false, ih, List.count_cons]
        have : (a == c) = false := by
          simp [BEq.beq]
          exact fun h => hx h.symm
        simp [this]
      · have hkeep : (!(a == x)) = true := by simp [ha]
        simp only [List.filter_cons, hkeep, if_true, List.count_cons, ih]

theorem parens_strip_lparen (t : Tok) : parens (strip '(' t) = t.count ')' := by
  unfold parens strip
  have h1 : (t.filter (fun d => !(d == '('))).count '(' = 0 := by
    apply List.count_eq_zero.2
    intro h
    have := List.of_mem_filter h
    simp at this
  have h2 := count_filter_ne ')' '(' (by decide) t
  omega

theorem parens_strip_lparen_lt {t : Tok} (h : '(' ∈ t) : parens (strip '(' t) < parens t := by
  have h0 := parens_strip_lparen t
  have hpos : 0 < t.count '(' := List.count_pos_iff.2 h
  unfold parens at *
  omega

theorem parens_strip_le (c : Char) (t : Tok) : parens (strip c t) ≤ parens t := by
  unfold parens strip
  have h1 : (t.filter (fun d => !(d == c))).count '(' ≤ t.count '(' :=
    (List.filter_sublist t).count_le '('
  have h2 : (t.filter (fun d => !(d == c))).count ')' ≤ t.count ')' :=
    (List.filter_sublist t).count_le ')'
  omega

theorem parenWeight_append (a b : List Tok) :
    parenWeight (a ++ b) = parenWeight a + parenWeight b := by
  unfold parenWeight
  rw [List.map_append, List.sum_append]

theorem parenWeight_take_drop (l : List Tok) (n : Nat) :
    parenWeight l = parenWeight (l.take n) + parenWeight (l.drop n) := by
  conv_lhs => rw [← List.take_append_drop n l]
  exact parenWeight_append _ _

theorem parenWeight_take_le (l : List Tok) (n : Nat) : parenWeight (l.take n) ≤ parenWeight l := by
  rw [parenWeight_take_drop l n]; omega

theorem parenWeight_drop_le (l : List Tok) (n : Nat) : parenWeight (l.drop n) ≤ parenWeight l := by
  rw [parenWeight_take_drop l n]; omega

theorem parenWeight_drop_mono (l : List Tok) {k m : Nat} (h : k ≤ m) :
    parenWeight (l.drop m) ≤ parenWeight (l.drop k) := by
  have hd : l.drop m = (l.drop k).drop (m - k) := by
    rw [List.drop_drop]
    congr 1
    omega
  rw [hd]
  exact parenWeight_drop_le _ _

theorem parens_getD_le : ∀ (l : List Tok) (n : Nat), n < l.length →
    parens (l.getD n []) ≤ parenWeight l := by
  intro l
  induction l with
  | nil => intro n h; simp at h
  | cons t ts ih =>
      intro n h
      cases n with
      | zero => simp [parenWeight, List.getD]
      | succ m =>
          have hm : m < ts.length := by simpa using h
          have := ih m hm
          have hsplit : parenWeight (t :: ts) = parens t + parenWeight ts := by
            simp [parenWeight]
          simp only [List.getD_cons_succ]
          omega

theorem parenWeight_set_le : ∀ (l : List Tok) (i : Nat) (v : Tok),
    parens v ≤ parens (l.getD i []) → parenWeight (l.set i v) ≤ parenWeight l := by
  intro l
  induction l with
  | nil => intro i v _; simp [List.set]
  | cons t ts ih =>
      intro i v hv
      cases i with
      | zero =>
          simp only [List.set_cons_zero, List.getD_cons_zero] at *
          simp only [parenWeight, List.map_cons, List.sum_cons]
          omega
      | succ m =>
          simp only [List.set_cons_succ, List.getD_cons_succ] at *
          have := ih m v hv
          simp only [parenWeight, List.map_cons, List.sum_cons] at this ⊢
          omega

theorem parenWeight_set_lt : ∀ (l : List Tok) (i : Nat) (v : Tok),
    i < l.length → parens v < parens (l.getD i []) → parenWeight (l.set i v) < parenWeight l := by
  intro l
  induction l with
  | nil => intro i v hi _; simp at hi
  | cons t ts ih =>
      intro i v hi hv
      cases i with
      | zero =>
          simp only [List.set_cons_zero, List.getD_cons_zero] at *
          simp only [parenWeight, List.map_cons, List.sum_cons]
          omega
      | succ m =>
          simp only [List.set_cons_succ, List.getD_cons_succ] at *
          have hm : m < ts.length := by simpa using hi
          have := ih m v hm hv
          simp only [parenWeight, List.map_cons, List.sum_cons] at this ⊢
          omega

theorem getD_append_left {α : Type} (a b : List α) (d : α) :
    ∀ (i : Nat), i < a.length → (a ++ b).getD i d = a.getD i d := by
  induction a with
  | nil => intro i hi; simp at hi
  | cons x xs ih =>
      intro i hi
      cases i with
      | zero => rfl
      | succ m =>
          simp only [List.cons_append, List.getD_cons_succ]
          exact ih m (by simpa using hi)

theorem getD_take {α : Type} (d : α) :
    ∀ (l : List α) (n i : Nat), i < n → (l.take n).getD i d = l.getD i d := by
  intro l
  induction l with
  | nil => intro n i _; simp
  | cons x xs ih =>
      intro n i h
      cases n with
      | zero => omega
      | succ m =>
          cases i with
          | zero => rfl
          | succ j =>
              simp only [List.take_succ_cons, List.getD_cons_succ]
              exact ih m j (by omega)

theorem pyMerge_length {α : Type} {f : α → α → α} {loc : Nat} {terms ts : List α}
    (h : pyMerge f loc terms = some ts) : ts.length + 1 = terms.length := by
  unfold pyMerge at h
  by_cases h0 : loc = 0
  · simp only [h0, if_true] at h
    cases terms with
    | nil => simp at h
    | cons t tl =>
        simp only [Option.some.injEq] at h
        subst h
        simp
  · simp only [h0, if_false] at h
    cases hd : terms.drop (loc - 1) with
    | nil => rw [hd] at h; simp at h
    | cons a tl =>
        cases tl with
        | nil => rw [hd] at h; simp at h
        | cons b rest =>
            rw [hd] at h
            simp only [Option.some.injEq] at h
            subst h
            have hlen : terms.length - (loc - 1) = rest.length + 2 := by
              have := congrArg List.length hd
              simpa using this
            have hle : loc - 1 ≤ terms.length := by
              by_contra hcon
              push_neg at hcon
              rw [List.drop_eq_nil_of_le (le_of_lt hcon)] at hd
              simp at hd
            simp only [List.length_append, List.length_take, List.length_cons]
            omega

theorem parenWeight_eraseIdx_le : ∀ (l : List Tok) (i : Nat),
    parenWeight (l.eraseIdx i) ≤ parenWeight l := by
  intro l
  induction l with
  | nil => intro i; simp [List.eraseIdx]
  | cons t ts ih =>
      intro i
      cases i with
      | zero =>
          simp only [List.eraseIdx]
          have h3 : parenWeight (t :: ts) = parens t + parenWeight ts := by simp [parenWeight]
          omega
      | succ m =>
          simp only [List.eraseIdx]
          have h2 : parenWeight (t :: ts.eraseIdx m) = parens t + parenWeight (ts.eraseIdx m) := by
            simp [parenWeight]
          have h3 : parenWeight (t :: ts) = parens t + parenWeight ts := by simp [parenWeight]
          have := ih m
          omega

theorem parenWeight_eq_zero {ops : List Tok}
    (h1 : charLocs '(' ops = []) (h2 : charLocs ')' ops = []) : parenWeight ops = 0 := by
  have hall1 := charLocs_nil_forall h1
  have hall2 := charLocs_nil_forall h2
  unfold parenWeight
  apply List.sum_eq_zero
  intro x hx
  rcases List.mem_map.1 hx with ⟨t, ht, rfl⟩
  have c1 : t.count '(' = 0 := List.count_eq_zero.2 (hall1 t ht)
  have c2 : t.count ')' = 0 := List.count_eq_zero.2 (hall2 t ht)
  unfold parens
  omega

theorem groupSubOps_weight_lt (L c : Nat) (ops : List Tok)
    (hL : L < ops.length) (hc : '(' ∈ ops.getD L []) :
    parenWeight (groupSubOps L c ops) < parenWeight ops := by
  unfold groupSubOps
  have h1 : parenWeight (([] : Tok) :: ((ops.drop (L + 1)).take (c - (L + 1))) ++ [[]]) =
      parenWeight ((ops.drop (L + 1)).take (c - (L + 1))) := by
    have ha : (([] : Tok) :: ((ops.drop (L + 1)).take (c - (L + 1))) ++ [[]]) =
        [([] : Tok)] ++ ((ops.drop (L + 1)).take (c - (L + 1))) ++ [[]] := rfl
    rw [ha, parenWeight_append, parenWeight_append]
    simp [parenWeight, parens]
  rw [h1]
  have h2 : parenWeight ((ops.drop (L + 1)).take (c - (L + 1))) ≤
      parenWeight (ops.drop (L + 1)) := parenWeight_take_le _ _
  have h3 : parenWeight ops = parenWeight (ops.take (L + 1)) + parenWeight (ops.drop (L + 1)) :=
    parenWeight_take_drop _ _
  have htklen : (ops.take (L + 1)).length = L + 1 := by
    rw [List.length_take]
    omega
  have h4 : parens (ops.getD L []) ≤ parenWeight (ops.take (L + 1)) := by
    have := parens_getD_le (ops.take (L + 1)) L (by omega)
    rwa [getD_take ([] : Tok) ops (L + 1) L (by omega)] at this
  have h5 : 0 < parens (ops.getD L []) := parens_pos_of_lparen hc
  omega

theorem pyDelSlice_getD_lt (a b : Nat) (ops : List Tok) (i : Nat)
    (hi : i < a) (hil : i < ops.length) :
    (pyDelSlice a b ops).getD i [] = ops.getD i [] := by
  unfold pyDelSlice
  have htklen : (ops.take a).length = min a ops.length := List.length_take a ops
  rw [getD_append_left _ _ _ i (by omega)]
  exact getD_take ([] : Tok) ops a i hi

theorem pyDelSlice_length_ge (a b : Nat) (ops : List Tok) (ha : a ≤ ops.length) :
    a ≤ (pyDelSlice a b ops).length := by
  unfold pyDelSlice
  rw [List.length_append, List.length_take]
  omega

theorem groupSpliceOps_weight_lt (L c : Nat) (ops : List Tok)
    (hL : L < ops.length) (hc : '(' ∈ ops.getD L []) :
    parenWeight (groupSpliceOps L c ops) < parenWeight ops := by
  have hops1le : parenWeight (pyDelSlice (L + 1) c ops) ≤ parenWeight ops := by
    unfold pyDelSlice
    rw [parenWeight_append]
    have hm : parenWeight (ops.drop (max (L + 1) c)) ≤ parenWeight (ops.drop (L + 1)) :=
      parenWeight_drop_mono ops (Nat.le_max_left _ _)
    have := parenWeight_take_drop ops (L + 1)
    omega
  have hgd : (pyDelSlice (L + 1) c ops).getD L [] = ops.getD L [] :=
    pyDelSlice_getD_lt (L + 1) c ops L (by omega) hL
  have hlen1 : L < (pyDelSlice (L + 1) c ops).length := by
    have := pyDelSlice_length_ge (L + 1) c ops (by omega)
    omega
  have hset1 : parenWeight (groupSpliceOps1 L c ops) < parenWeight (pyDelSlice (L + 1) c ops) := by
    unfold groupSpliceOps1
    apply parenWeight_set_lt _ _ _ hlen1
    rw [hgd]
    exact parens_strip_lparen_lt hc
  have hset2 : parenWeight (groupSpliceOps L c ops) ≤ parenWeight (groupSpliceOps1 L c ops) := by
    unfold groupSpliceOps
    apply parenWeight_set_le
    exact parens_strip_le _ _
  omega

theorem groupSubTerms_length_le (L c : Nat) (terms : List α) :
    (groupSubTerms L c terms).length ≤ terms.length := by
  unfold groupSubTerms
  rw [List.length_take, List.length_drop]
  omega

theorem groupSpliceTerms_length_le (L c : Nat) (x : α) (terms : List α) :
    (groupSpliceTerms L c x terms).length ≤ terms.length + 1 := by
  unfold groupSpliceTerms pyInsert pyDelSlice
  simp only [List.length_append, List.length_take, List.length_cons, List.length_drop]
  omega

/-! ### The combination algorithm (`Expression.combine_terms`) -/

/-- Shallow embedding of `Expression.combine_terms(terms, ops)`.  The
Python method ignores `self`, so it is modelled as a standalone function
parameterised by the engine that supplies the five binary operations.
The two slice end-points of the `closest_loc = -1` branch are
`len(terms) - 1` and `len(ops) - 1` because Python resolves the negative
slice index `-1` against the respective list. -/
def combine_terms {α : Type} (E : Engine α) (terms : List α) (ops : List Tok) : CRes α :=
  if ops.length ≠ terms.length + 1 then .invariantErr
  else
    match terms with
    | [t] => .ok t
    | terms =>
      if hbal : (charLocs '(' ops).length ≠ (charLocs ')' ops).length then .unbalanced
      else
        if hl : charLocs '(' ops ≠ [] then
          if ¬ ((charLocs '(' ops).headD 0 < (charLocs ')' ops).headD 0) then .unbalanced
          else
            match (closestLoc ((charLocs '(' ops).getLastD 0) (charLocs ')' ops)).2 with
            | some c =>
                match combine_terms E
                    (groupSubTerms ((charLocs '(' ops).getLastD 0) c terms)
                    (groupSubOps ((charLocs '(' ops).getLastD 0) c ops) with
                | .ok t =>
                    combine_terms E
                      (groupSpliceTerms ((charLocs '(' ops).getLastD 0) c t terms)
                      (groupSpliceOps ((charLocs '(' ops).getLastD 0) c ops)
                | e => e
            | none =>
                match combine_terms E
                    (groupSubTerms ((charLocs '(' ops).getLastD 0) (terms.length - 1) terms)
                    (groupSubOps ((charLocs '(' ops).getLastD 0) (ops.length - 1) ops) with
                | .ok t =>
                    combine_terms E
                      (groupSpliceTerms ((charLocs '(' ops).getLastD 0) (terms.length - 1) t terms)
                      (groupSpliceOps ((charLocs '(' ops).getLastD 0) (ops.length - 1) ops)
                | e => e
        else
          if ['^'] ∈ ops then
            match hm : pyMerge E.pow (pyIndexOf ['^'] ops) terms with
            | some ts => combine_terms E ts (ops.eraseIdx (pyIndexOf ['^'] ops))
            | none => .indexErr
          else
            if (['*'] ∈ ops ∧ ['/'] ∈ ops ∧ pyIndexOf ['*'] ops < pyIndexOf ['/'] ops) ∨
                (['*'] ∈ ops ∧ ['/'] ∉ ops) then
              match hm : pyMerge E.mul (pyIndexOf ['*'] ops) terms with
              | some ts => combine_terms E ts (ops.eraseIdx (pyIndexOf ['*'] ops))
              | none => .indexErr
            else if (['*'] ∈ ops ∧ ['/'] ∈ ops ∧ pyIndexOf ['/'] ops < pyIndexOf ['*'] ops) ∨
                (['/'] ∈ ops ∧ ['*'] ∉ ops) then
              match hm : pyMerge E.div (pyIndexOf ['/'] ops) terms with
              | some ts => combine_terms E ts (ops.eraseIdx (pyIndexOf ['/'] ops))
              | none => .indexErr
            else if (['+'] ∈ ops ∧ ['-'] ∈ ops ∧ pyIndexOf ['+'] ops < pyIndexOf ['-'] ops) ∨
                (['+'] ∈ ops ∧ ['-'] ∉ ops) then
              match hm : pyMerge E.add (pyIndexOf ['+'] ops) terms with
              | some ts => combine_terms E ts (ops.eraseIdx (pyIndexOf ['+'] ops))
              | none => .indexErr
            else if (['-'] ∈ ops ∧ ['+'] ∈ ops ∧ pyIndexOf ['-'] ops < pyIndexOf ['+'] ops) ∨
                (['-'] ∈ ops ∧ ['+'] ∉ ops) then
              match hm : pyMerge E.sub (pyIndexOf ['-'] ops) terms with
              | some ts => combine_terms E ts (ops.eraseIdx (pyIndexOf ['-'] ops))
              | none => .indexErr
            else .none
termination_by (parenWeight ops, terms.length)
decreasing_by
  · apply Prod.Lex.left
    obtain ⟨hLlt, hLin⟩ := charLocs_mem (getLastD_mem 0 hl)
    exact groupSubOps_weight_lt _ _ _ hLlt hLin
  · apply Prod.Lex.left
    obtain ⟨hLlt, hLin⟩ := charLocs_mem (getLastD_mem 0 hl)
    exact groupSpliceOps_weight_lt _ _ _ hLlt hLin
  · apply Prod.Lex.left
    obtain ⟨hLlt, hLin⟩ := charLocs_mem (getLastD_mem 0 hl)
    exact groupSubOps_weight_lt _ _ _ hLlt hLin
  · apply Prod.Lex.left
    obtain ⟨hLlt, hLin⟩ := charLocs_mem (getLastD_mem 0 hl)
    exact groupSpliceOps_weight_lt _ _ _ hLlt hLin
  all_goals
    push_neg at hbal hl
    have hrnil : charLocs ')' ops = [] := by
      rw [hl] at hbal
      exact List.length_eq_zero.1 hbal.symm
    have hw : parenWeight ops = 0 := parenWeight_eq_zero hl hrnil
    have hw2 : ∀ x : Tok, parenWeight (ops.eraseIdx (pyIndexOf x ops)) = 0 := by
      intro x
      have := parenWeight_eraseIdx_le ops (pyIndexOf x ops)
      omega
    rw [hw2, hw]
    apply Prod.Lex.right
    have := pyMerge_length hm
    omega

/-! ### One-step characterisations of `combine_terms` -/

theorem exists_cons_cons {α : Type} {l : List α} (h : 2 ≤ l.length) :
    ∃ a b r, l = a :: b :: r := by
  cases l with
  | nil => simp at h
  | cons a tl =>
      cases tl with
      | nil => simp at h
      | cons b r => exact ⟨a, b, r, rfl⟩

/-- Base case: a single term is returned unchanged. -/
theorem combine_single {α : Type} (E : Engine α) (t : α) (ops : List Tok)
    (hlen : ops.length = 2) : combine_terms E [t] ops = .ok t := by
  rw [combine_terms.eq_1]
  rw [if_neg (fun hc => hc (by simp [hlen]))]

/-- The length precondition is checked before anything else. -/
theorem combine_invariantErr {α : Type} (E : Engine α) (terms : List α) (ops : List Tok)
    (hlen : ops.length ≠ terms.length + 1) : combine_terms E terms ops = .invariantErr := by
  cases terms with
  | nil =>
      rw [combine_terms.eq_2 E [] ops (by simp)]
      rw [if_pos hlen]
  | cons a tl =>
      cases tl with
      | nil =>
          rw [combine_terms.eq_1]
          rw [if_pos hlen]
      | cons b r =>
          rw [combine_terms.eq_2 E (a :: b :: r) ops (by simp)]
          rw [if_pos hlen]

/-- Mismatched grouping-mark counts abort with the unbalanced error. -/
theorem combine_unbalanced_count {α : Type} (E : Engine α) (terms : List α) (ops : List Tok)
    (hlen : ops.length = terms.length + 1) (h2 : 2 ≤ terms.length)
    (hbal : (charLocs '(' ops).length ≠ (charLocs ')' ops).length) :
    combine_terms E terms ops = .unbalanced := by
  obtain ⟨a, b, r, rfl⟩ := exists_cons_cons h2
  rw [combine_terms.eq_2 E (a :: b :: r) ops (by simp)]
  rw [if_neg (fun hc => hc hlen)]
  rw [dif_pos hbal]

/-- An opening mark that does not precede the first closing mark aborts
with the unbalanced error. -/
theorem combine_unbalanced_order {α : Type} (E : Engine α) (terms : List α) (ops : List Tok)
    (hlen : ops.length = terms.length + 1) (h2 : 2 ≤ terms.length)
    (hbal : (charLocs '(' ops).length = (charLocs ')' ops).length)
    (hl : charLocs '(' ops ≠ [])
    (hord : ¬ ((charLocs '(' ops).headD 0 < (charLocs ')' ops).headD 0)) :
    combine_terms E terms ops = .unbalanced := by
  obtain ⟨a, b, r, rfl⟩ := exists_cons_cons h2
  rw [combine_terms.eq_2 E (a :: b :: r) ops (by simp)]
  rw [if_neg (fun hc => hc hlen)]
  rw [dif_neg (fun hc => hc hbal)]
  rw [dif_pos hl]
  rw [if_pos hord]

/-- Grouping step when the closing-mark scan succeeds. -/
theorem combine_group_some {α : Type} (E : Engine α) (terms : List α) (ops : List Tok)
    (L c : Nat)
    (hlen : ops.length = terms.length + 1) (h2 : 2 ≤ terms.length)
    (hbal : (charLocs '(' ops).length = (charLocs ')' ops).length)
    (hl : charLocs '(' ops ≠ [])
    (hord : (charLocs '(' ops).headD 0 < (charLocs ')' ops).headD 0)
    (hL : (charLocs '(' ops).getLastD 0 = L)
    (hc : (closestLoc L (charLocs ')' ops)).2 = some c) :
    combine_terms E terms ops =
      match combine_terms E (groupSubTerms L c terms) (groupSubOps L c ops) with
      | .ok t => combine_terms E (groupSpliceTerms L c t terms) (groupSpliceOps L c ops)
      | e => e := by
  subst hL
  obtain ⟨a, b, r, rfl⟩ := exists_cons_cons h2
  rw [combine_terms.eq_2 E (a :: b :: r) ops (by simp)]
  rw [if_neg (fun hcon => hcon hlen)]
  rw [dif_neg (fun hcon => hcon hbal)]
  rw [dif_pos hl]
  rw [if_neg (not_not_intro hord)]
  rw [hc]

/-- Grouping step when the closing-mark scan keeps its `-1` sentinel
(every candidate distance is `≤ 0` or `≥ 10000`): Python slices with the
negative index `-1`. -/
theorem combine_group_none {α : Type} (E : Engine α) (terms : List α) (ops : List Tok)
    (L : Nat)
    (hlen : ops.length = terms.length + 1) (h2 : 2 ≤ terms.length)
    (hbal : (charLocs '(' ops).length = (charLocs ')' ops).length)
    (hl : charLocs '(' ops ≠ [])
    (hord : (charLocs '(' ops).headD 0 < (charLocs ')' ops).headD 0)
    (hL : (charLocs '(' ops).getLastD 0 = L)
    (hc : (closestLoc L (charLocs ')' ops)).2 = none) :
    combine_terms E terms ops =
      match combine_terms E (groupSubTerms L (terms.length - 1) terms)
          (groupSubOps L (ops.length - 1) ops) with
      | .ok t => combine_terms E (groupSpliceTerms L (terms.length - 1) t terms)
          (groupSpliceOps L (ops.length - 1) ops)
      | e => e := by
  subst hL
  obtain ⟨a, b, r, rfl⟩ := exists_cons_cons h2
  rw [combine_terms.eq_2 E (a :: b :: r) ops (by simp)]
  rw [if_neg (fun hcon => hcon hlen)]
  rw [dif_neg (fun hcon => hcon hbal)]
  rw [dif_pos hl]
  rw [if_neg (not_not_intro hord)]
  rw [hc]

/-- Exponent step: with no grouping marks anywhere, the leftmost `'^'`
token is processed first. -/
theorem combine_caret_step {α : Type} (E : Engine α) (terms : List α) (ops : List Tok)
    (hlen : ops.length = terms.length + 1) (h2 : 2 ≤ terms.length)
    (hlp : charLocs '(' ops = []) (hrp : charLocs ')' ops = [])
    (hcaret : ['^'] ∈ ops) :
    combine_terms E terms ops =
      match pyMerge E.pow (pyIndexOf ['^'] ops) terms with
      | some ts => combine_terms E ts (ops.eraseIdx (pyIndexOf ['^'] ops))
      | none => .indexErr := by
  obtain ⟨a, b, r, rfl⟩ := exists_cons_cons h2
  rw [combine_terms.eq_2 E (a :: b :: r) ops (by simp)]
  rw [if_neg (fun hcon => hcon hlen)]
  rw [dif_neg (fun hcon => hcon (by rw [hlp, hrp]))]
  rw [dif_neg (not_not_intro hlp)]
  rw [if_pos hcaret]
  cases pyMerge E.pow (pyIndexOf ['^'] ops) (a :: b :: r) <;> rfl

/-- Multiplication step: with no grouping marks and no `'^'` token, a
leftmost `'*'` that precedes any `'/'` is processed first — in
particular before any `'+'` or `'-'`. -/
theorem combine_mul_step {α : Type} (E : Engine α) (terms : List α) (ops : List Tok)
    (hlen : ops.length = terms.length + 1) (h2 : 2 ≤ terms.length)
    (hlp : charLocs '(' ops = []) (hrp : charLocs ')' ops = [])
    (hcaret : ['^'] ∉ ops)
    (hcond : (['*'] ∈ ops ∧ ['/'] ∈ ops ∧ pyIndexOf ['*'] ops < pyIndexOf ['/'] ops) ∨
      (['*'] ∈ ops ∧ ['/'] ∉ ops)) :
    combine_terms E terms ops =
      match pyMerge E.mul (pyIndexOf ['*'] ops) terms with
      | some ts => combine_terms E ts (ops.eraseIdx (pyIndexOf ['*'] ops))
      | none => .indexErr := by
  obtain ⟨a, b, r, rfl⟩ := exists_cons_cons h2
  rw [combine_terms.eq_2 E (a :: b :: r) ops (by simp)]
  rw [if_neg (fun hcon => hcon hlen)]
  rw [dif_neg (fun hcon => hcon (by rw [hlp, hrp]))]
  rw [dif_neg (not_not_intro hlp)]
  rw [if_neg hcaret]
  rw [if_pos hcond]
  cases pyMerge E.mul (pyIndexOf ['*'] ops) (a :: b :: r) <;> rfl

/-- Division step: with no grouping marks and no `'^'` token, a leftmost
`'/'` that precedes any `'*'` is processed first. -/
theorem combine_div_step {α : Type} (E : Engine α) (terms : List α) (ops : List Tok)
    (hlen : ops.length = terms.length + 1) (h2 : 2 ≤ terms.length)
    (hlp : charLocs '(' ops = []) (hrp : charLocs ')' ops = [])
    (hcaret : ['^'] ∉ ops)
    (hmulcond : ¬ ((['*'] ∈ ops ∧ ['/'] ∈ ops ∧ pyIndexOf ['*'] ops < pyIndexOf ['/'] ops) ∨
      (['*'] ∈ ops ∧ ['/'] ∉ ops)))
    (hcond : (['*'] ∈ ops ∧ ['/'] ∈ ops ∧ pyIndexOf ['/'] ops < pyIndexOf ['*'] ops) ∨
      (['/'] ∈ ops ∧ ['*'] ∉ ops)) :
    combine_terms E terms ops =
      match pyMerge E.div (pyIndexOf ['/'] ops) terms with
      | some ts => combine_terms E ts (ops.eraseIdx (pyIndexOf ['/'] ops))
      | none => .indexErr := by
  obtain ⟨a, b, r, rfl⟩ := exists_cons_cons h2
  rw [combine_terms.eq_2 E (a :: b :: r) ops (by simp)]
  rw [if_neg (fun hcon => hcon hlen)]
  rw [dif_neg (fun hcon => hcon (by rw [hlp, hrp]))]
  rw [dif_neg (not_not_intro hlp)]
  rw [if_neg hcaret]
  rw [if_neg hmulcond]
  rw [if_pos hcond]
  cases pyMerge E.div (pyIndexOf ['/'] ops) (a :: b :: r) <;> rfl

/-- Addition step: reached only when no grouping mark, `'^'`, `'*'` or
`'/'` case fired. -/
theorem combine_add_step {α : Type} (E : Engine α) (terms : List α) (ops : List Tok)
    (hlen : ops.length = terms.length + 1) (h2 : 2 ≤ terms.length)
    (hlp : charLocs '(' ops = []) (hrp : charLocs ')' ops = [])
    (hcaret : ['^'] ∉ ops)
    (hmulcond : ¬ ((['*'] ∈ ops ∧ ['/'] ∈ ops ∧ pyIndexOf ['*'] ops < pyIndexOf ['/'] ops) ∨
      (['*'] ∈ ops ∧ ['/'] ∉ ops)))
    (hdivcond : ¬ ((['*'] ∈ ops ∧ ['/'] ∈ ops ∧ pyIndexOf ['/'] ops < pyIndexOf ['*'] ops) ∨
      (['/'] ∈ ops ∧ ['*'] ∉ ops)))
    (hcond : (['+'] ∈ ops ∧ ['-'] ∈ ops ∧ pyIndexOf ['+'] ops < pyIndexOf ['-'] ops) ∨
      (['+'] ∈ ops ∧ ['-'] ∉ ops)) :
    combine_terms E terms ops =
      match pyMerge E.add (pyIndexOf ['+'] ops) terms with
      | some ts => combine_terms E ts (ops.eraseIdx (pyIndexOf ['+'] ops))
      | none => .indexErr := by
  obtain ⟨a, b, r, rfl⟩ := exists_cons_cons h2
  rw [combine_terms.eq_2 E (a :: b :: r) ops (by simp)]
  rw [if_neg (fun hcon => hcon hlen)]
  rw [dif_neg (fun hcon => hcon (by rw [hlp, hrp]))]
  rw [dif_neg (not_not_intro hlp)]
  rw [if_neg hcaret]
  rw [if_neg hmulcond]
  rw [if_neg hdivcond]
  rw [if_pos hcond]
  cases pyMerge E.add (pyIndexOf ['+'] ops) (a :: b :: r) <;> rfl

/-- Subtraction step. -/
theorem combine_sub_step {α : Type} (E : Engine α) (terms : List α) (ops : List Tok)
    (hlen : ops.length = terms.length + 1) (h2 : 2 ≤ terms.length)
    (hlp : charLocs '(' ops = []) (hrp : charLocs ')' ops = [])
    (hcaret : ['^'] ∉ ops)
    (hmulcond : ¬ ((['*'] ∈ ops ∧ ['/'] ∈ ops ∧ pyIndexOf ['*'] ops < pyIndexOf ['/'] ops) ∨
      (['*'] ∈ ops ∧ ['/'] ∉ ops)))
    (hdivcond : ¬ ((['*'] ∈ ops ∧ ['/'] ∈ ops ∧ pyIndexOf ['/'] ops < pyIndexOf ['*'] ops) ∨
      (['/'] ∈ ops ∧ ['*'] ∉ ops)))
    (haddcond : ¬ ((['+'] ∈ ops ∧ ['-'] ∈ ops ∧ pyIndexOf ['+'] ops < pyIndexOf ['-'] ops) ∨
      (['+'] ∈ ops ∧ ['-'] ∉ ops)))
    (hcond : (['-'] ∈ ops ∧ ['+'] ∈ ops ∧ pyIndexOf ['-'] ops < pyIndexOf ['+'] ops) ∨
      (['-'] ∈ ops ∧ ['+'] ∉ ops)) :
    combine_terms E terms ops =
      match pyMerge E.sub (pyIndexOf ['-'] ops) terms with
      | some ts => combine_terms E ts (ops.eraseIdx (pyIndexOf ['-'] ops))
      | none => .indexErr := by
  obtain ⟨a, b, r, rfl⟩ := exists_cons_cons h2
  rw [combine_terms.eq_2 E (a :: b :: r) ops (by simp)]
  rw [if_neg (fun hcon => hcon hlen)]
  rw [dif_neg (fun hcon => hcon (by rw [hlp, hrp]))]
  rw [dif_neg (not_not_intro hlp)]
  rw [if_neg hcaret]
  rw [if_neg hmulcond]
  rw [if_neg hdivcond]
  rw [if_neg haddcond]
  rw [if_pos hcond]
  cases pyMerge E.sub (pyIndexOf ['-'] ops) (a :: b :: r) <;> rfl

/-- Fall-through: with more than one term, no grouping marks and none of
the five operator tokens present, every case falls through and the
function returns Python's `None`. -/
theorem combine_fallthrough {α : Type} (E : Engine α) (terms : List α) (ops : List Tok)
    (hlen : ops.length = terms.length + 1) (h2 : 2 ≤ terms.length)
    (hlp : charLocs '(' ops = []) (hrp : charLocs ')' ops = [])
    (hcaret : ['^'] ∉ ops) (hmul : ['*'] ∉ ops) (hdiv : ['/'] ∉ ops)
    (hadd : ['+'] ∉ ops) (hsub : ['-'] ∉ ops) :
    combine_terms E terms ops = .none := by
  obtain ⟨a, b, r, rfl⟩ := exists_cons_cons h2
  rw [combine_terms.eq_2 E (a :: b :: r) ops (by simp)]
  rw [if_neg (fun hcon => hcon hlen)]
  rw [dif_neg (fun hcon => hcon (by rw [hlp, hrp]))]
  rw [dif_neg (not_not_intro hlp)]
  rw [if_neg hcaret]
  rw [if_neg (fun hcon => hcon.elim (fun h => hmul h.1) (fun h => hmul h.1))]
  rw [if_neg (fun hcon => hcon.elim (fun h => hdiv h.2.1) (fun h => hdiv h.1))]
  rw [if_neg (fun hcon => hcon.elim (fun h => hadd h.1) (fun h => hadd h.1))]
  rw [if_neg (fun hcon => hcon.elim (fun h => hsub h.1) (fun h => hsub h.1))]

/-! ### The Expression data type -/

/-- The data of a problemgen `Expression`: two parallel term sequences
and the operator-token sequence. -/
structure Expression (α : Type) where
  unreduced_terms : List α
  reduced_terms : List α
  operations : List Tok
deriving DecidableEq

/-- `Expression.zero_clean`: delete every position whose unreduced term
is the numeric zero value (`sympy_term == 0`, supplied by the engine as
`isZ`), together with the aligned reduced term and the operator at the
same index (`del self.operations[i]`).  The structural recursion is
equivalent to the Python loop `for i in reversed(range(...))`: deletion
at an index never moves entries at lower indices, and the final operator
(index `len(unreduced)`) is never deleted.  The two length-mismatched
fall-back arms never arise from the constructor, which asserts alignment
first. -/
def zero_clean {α : Type} (isZ : α → Bool) :
    List α → List α → List Tok → List α × List α × List Tok
  | [], rs, ops => ([], rs, ops)
  | u :: us, [], ops => (u :: us, [], ops)
  | u :: us, r :: rs, [] => (u :: us, r :: rs, [])
  | u :: us, r :: rs, op :: ops =>
      match zero_clean isZ us rs ops with
      | (us', rs', ops') =>
          if isZ u then (us', rs', ops') else (u :: us', r :: rs', op :: ops')

/-- `Expression.__init__`: assert
`len(operations) == len(unreduced_terms) + 1` and
`len(unreduced_terms) == len(reduced_terms)`, copy the lists, then run
`zero_clean`.  `none` models the `AssertionError` on a malformed
triple. -/
def Expression.make {α : Type} (isZ : α → Bool) (u r : List α) (ops : List Tok) :
    Option (Expression α) :=
  if ops.length = u.length + 1 ∧ u.length = r.length then
    match zero_clean isZ u r ops with
    | (u', r', ops') => some ⟨u', r', ops'⟩
  else none

/-- Python `l[1:-1]` on operator lists. -/
def interiorOps (l : List Tok) : List Tok := (l.drop 1).dropLast

/-- `Expression.__add__`: concatenate the parallel term lists and build
`['('] + self.operations[1:-1] + [')+('] + other.operations[1:-1] + [')']`,
then construct the result through `Expression.__init__`. -/
def Expression.addOp {α : Type} (isZ : α → Bool) (p q : Expression α) : Option (Expression α) :=
  Expression.make isZ (p.unreduced_terms ++ q.unreduced_terms)
    (p.reduced_terms ++ q.reduced_terms)
    ([['(']] ++ interiorOps p.operations ++ [[')', '+', '(']] ++ interiorOps q.operations ++ [[')']])

/-- `Expression.__sub__`. -/
def Expression.subOp {α : Type} (isZ : α → Bool) (p q : Expression α) : Option (Expression α) :=
  Expression.make isZ (p.unreduced_terms ++ q.unreduced_terms)
    (p.reduced_terms ++ q.reduced_terms)
    ([['(']] ++ interiorOps p.operations ++ [[')', '-', '(']] ++ interiorOps q.operations ++ [[')']])

/-- `Expression.__mul__`. -/
def Expression.mulOp {α : Type} (isZ : α → Bool) (p q : Expression α) : Option (Expression α) :=
  Expression.make isZ (p.unreduced_terms ++ q.unreduced_terms)
    (p.reduced_terms ++ q.reduced_terms)
    ([['(']] ++ interiorOps p.operations ++ [[')', '*', '(']] ++ interiorOps q.operations ++ [[')']])

/-- `Expression.__truediv__`. -/
def Expression.divOp {α : Type} (isZ : α → Bool) (p q : Expression α) : Option (Expression α) :=
  Expression.make isZ (p.unreduced_terms ++ q.unreduced_terms)
    (p.reduced_terms ++ q.reduced_terms)
    ([['(']] ++ interiorOps p.operations ++ [[')', '/', '(']] ++ interiorOps q.operations ++ [[')']])

/-- `Expression.__pow__`. -/
def Expression.powOp {α : Type} (isZ : α → Bool) (p q : Expression α) : Option (Expression α) :=
  Expression.make isZ (p.unreduced_terms ++ q.unreduced_terms)
    (p.reduced_terms ++ q.reduced_terms)
    ([['(']] ++ interiorOps p.operations ++ [[')', '^', '(']] ++ interiorOps q.operations ++ [[')']])

/-- `Expression.simplify`: combine both tracks with the shared operator
list, collapse to singleton lists and the operator pair `['', '']`.  A
non-`ok` outcome of either combination is an exception in Python (or a
stored `None` for the fall-through case); either way no Expression with
longer lists results, and we model the outcome as `none`. -/
def Expression.simplify {α : Type} (E : Engine α) (e : Expression α) : Option (Expression α) :=
  match combine_terms E e.unreduced_terms e.operations,
        combine_terms E e.reduced_terms e.operations with
  | .ok u, .ok r => some ⟨[u], [r], [[], []]⟩
  | _, _ => none

/-- The parallel-array invariant of the spec:
`len(operations) == len(unreduced) + 1 == len(reduced) + 1`. -/
def ExpressionInv {α : Type} (e : Expression α) : Prop :=
  e.operations.length = e.unreduced_terms.length + 1 ∧
  e.unreduced_terms.length = e.reduced_terms.length

/-! ### The Term object and its operations -/

/-- A problemgen `Term`: the boxed symbolic value with its two cached
renderings. -/
structure Term (α : Type) where
  sympy_term : α
  latex_term : Tok
  str_term : Tok
deriving DecidableEq

/-- `Term.__init__(self, sympy_term, expand=True)`: the `expand`
argument is accepted but never stored — the constructor body only sets
`sympy_term`, `latex_term` and `str_term` (there is no
`self.expand = expand` line).  The renderings are obtained through the
engine boundary (`latex(...)` and `str(...)`), passed here as the
functions `latexR` and `strR`. -/
def Term.init {α : Type} (latexR strR : α → Tok) (v : α) (ex : Bool) : Term α :=
  ⟨v, latexR v, strR v⟩

/-- `Term.__add__`: the guard `if not expand:` refers to the *global*
sympy function `expand` (the flag was never stored on the instance), and
a function object is always truthy, so the unexpanded branch is dead and
`Term(expand(self.sympy_term + other.sympy_term))` is always
returned. -/
def Term.addT {α : Type} (E : Engine α) (latexR strR : α → Tok) (a b : Term α) : Term α :=
  Term.init latexR strR (E.expand (E.add a.sympy_term b.sympy_term)) true

/-- `Term.__sub__` (same dead unexpanded branch as `__add__`). -/
def Term.subT {α : Type} (E : Engine α) (latexR strR : α → Tok) (a b : Term α) : Term α :=
  Term.init latexR strR (E.expand (E.sub a.sympy_term b.sympy_term)) true

/-- `Term.__mul__` (same dead unexpanded branch as `__add__`). -/
def Term.mulT {α : Type} (E : Engine α) (latexR strR : α → Tok) (a b : Term α) : Term α :=
  Term.init latexR strR (E.expand (E.mul a.sympy_term b.sympy_term)) true

/-- `Term.__truediv__` (same dead unexpanded branch as `__add__`). -/
def Term.divT {α : Type} (E : Engine α) (latexR strR : α → Tok) (a b : Term α) : Term α :=
  Term.init latexR strR (E.expand (E.div a.sympy_term b.sympy_term)) true

/-- `Term.__pow__` (same dead unexpanded branch as `__add__`). -/
def Term.powT {α : Type} (E : Engine α) (latexR strR : α → Tok) (a b : Term α) : Term α :=
  Term.init latexR strR (E.expand (E.pow a.sympy_term b.sympy_term)) true

/-! ### The renderers -/

/-- Python `s.replace(pq, rep)` for the two-character patterns of the
sign-culling block: scan left to right, replacing non-overlapping
occurrences of the pair `p, q`. -/
def replacePair (p q : Char) (rep : Tok) : Tok → Tok
  | [] => []
  | [c] => [c]
  | c :: d :: cs =>
      if c = p ∧ d = q then rep ++ replacePair p q rep cs
      else c :: replacePair p q rep (d :: cs)

/-- Does the two-character pattern `p, q` occur as a substring? -/
def occursPair (p q : Char) : Tok → Bool
  | [] => false
  | [_] => false
  | c :: d :: cs => (c == p && d == q) || occursPair p q (d :: cs)

/-- The sign-culling block of the renderers, applied once each in the
source's order: `'+-'→'-'`, `'-+'→'-'`, `'--'→'+'`, `'++'→'+'`. -/
def cullSigns (s : Tok) : Tok :=
  replacePair '+' '+' ['+']
    (replacePair '-' '-' ['+']
      (replacePair '-' '+' ['-']
        (replacePair '+' '-' ['-'] s)))

/-- The interleaving loop of `str_question_from_expression`:
`operations[i] + str_term[i]` for each position, then the final
operator. -/
def rawStrQuestion {α : Type} (strR : α → Tok) (e : Expression α) : Tok :=
  (List.zipWith (fun o t => o ++ strR t) e.operations e.unreduced_terms).flatten ++
    e.operations.getLastD []

/-- `Problem.str_question_from_expression`: interleave, then cull
doubled signs. -/
def str_question_from_expression {α : Type} (strR : α → Tok) (e : Expression α) : Tok :=
  cullSigns (rawStrQuestion strR e)

/-- `Problem.convert_op_to_latex` (the Python `is` comparisons hold for
the interned single-token literals the generator produces; `=` models
them). -/
def convert_op_to_latex (op : Tok) : Tok :=
  if op = ['*'] then "\\cdot".toList
  else if op = ['/'] then "\\div".toList
  else if op = ['>', '='] then "\\geq".toList
  else if op = ['<', '='] then "\\leq".toList
  else if op = ['!', '='] then "\\neq".toList
  else op

/-- The interleaving loop of `latex_question_from_expression`. -/
def rawLatexQuestion {α : Type} (latexR : α → Tok) (e : Expression α) : Tok :=
  (List.zipWith (fun o t => convert_op_to_latex o ++ latexR t)
    e.operations e.unreduced_terms).flatten ++
    convert_op_to_latex (e.operations.getLastD [])

/-- `Problem.latex_question_from_expression`. -/
def latex_question_from_expression {α : Type} (latexR : α → Tok) (e : Expression α) : Tok :=
  cullSigns (rawLatexQuestion latexR e)

/-! ### Solution rendering for equations

`solve` / `solve_poly_inequality` belong to the external symbolic
engine; the renderers below receive the solver's output as the list
`solutions`, exactly as the Python code receives it before the rendering
logic that the claims are about. -/

/-- The accumulation loop of the `'='` branch:
`str(variable) + middle_sign + ' ' + str(s) + ', '` per solution. -/
def eqSolutionChunks {α : Type} (render : α → Tok) (variab middle : Tok)
    (solutions : List α) : Tok :=
  (solutions.map (fun s => variab ++ middle ++ [' '] ++ render s ++ [',', ' '])).flatten

/-- The accumulation of the inequality branch of
`str_solution_from_equation`: `str(variable) + ' ∊ '` then
`str(s) + ' ∪ '` per solution. -/
def strIntervalBuild {α : Type} (render : α → Tok) (variab : Tok)
    (solutions : List α) : Tok :=
  variab ++ [' ', '∊', ' '] ++ (solutions.map (fun s => render s ++ [' ', '∪', ' '])).flatten

/-- `Problem.str_solution_from_equation`, from the solver output on:
empty solution list → `'No solution'`; `'='` → the chunk loop minus the
trailing `', '`; inequality → the interval loop minus the trailing
`' ∪ '`. -/
def str_solution_from_equation {α : Type} (render : α → Tok) (variab middle : Tok)
    (solutions : List α) : Tok :=
  if solutions.length = 0 then "No solution".toList
  else if middle = ['='] then
    (eqSolutionChunks render variab middle solutions).take
      ((eqSolutionChunks render variab middle solutions).length - 2)
  else
    (strIntervalBuild render variab solutions).take
      ((strIntervalBuild render variab solutions).length - 3)

/-- The accumulation of the inequality branch of
`latex_solution_from_equation`: `latex(variable) + ' \in '` then
`latex(s) + ' \cup '` per solution. -/
def latexIntervalBuild {α : Type} (render : α → Tok) (variab : Tok)
    (solutions : List α) : Tok :=
  variab ++ " \\in ".toList ++ (solutions.map (fun s => render s ++ " \\cup ".toList)).flatten

/-- `Problem.latex_solution_from_equation`: as the plain renderer, with
`' \cup '` (6 characters) trimmed, plus the final
`if latex_solution == '': return '\text{ No solution }'` guard. -/
def latex_solution_from_equation {α : Type} (render : α → Tok) (variab middle : Tok)
    (solutions : List α) : Tok :=
  if solutions.length = 0 then "No solution".toList
  else if middle = ['='] then
    if (eqSolutionChunks render variab middle solutions).take
        ((eqSolutionChunks render variab middle solutions).length - 2) = [] then
      "\\text\x7b No solution \x7d".toList
    else
      (eqSolutionChunks render variab middle solutions).take
        ((eqSolutionChunks render variab middle solutions).length - 2)
  else
    if (latexIntervalBuild render variab solutions).take
        ((latexIntervalBuild render variab solutions).length - 6) = [] then
      "\\text\x7b No solution \x7d".toList
    else
      (latexIntervalBuild render variab solutions).take
        ((latexIntervalBuild render variab solutions).length - 6)

/-! ### Engines used for concrete instantiations -/

/-- The rational fragment of the symbolic engine: on numbers, sympy's
`+`, `-`, `*`, `/` are exact rational arithmetic, `expand` is the
identity, and `== 0` is equality with zero.  `pow` is modelled on its
integer-exponent fragment; no claim below evaluates `pow`
numerically. -/
def ratEngine : Engine ℚ :=
  ⟨(· + ·), (· - ·), (· * ·), (· / ·), fun a b => a ^ b.num, id, fun x => x == 0⟩

/-! ### Claims C3 and C10: error behaviour of the scanner -/

/-- C3: with more than one term (under the Expression length invariant),
an operator sequence whose counts of opening-mark-containing and
closing-mark-containing tokens differ, or in which an opening mark
exists but the first opening mark does not precede the first closing
mark, makes `combine_terms` abort with the unbalanced-grouping error —
no best-effort term is produced. -/
theorem C3_unbalanced_error {α : Type} (E : Engine α) (terms : List α) (ops : List Tok)
    (hlen : ops.length = terms.length + 1) (h2 : 2 ≤ terms.length)
    (hcond : (charLocs '(' ops).length ≠ (charLocs ')' ops).length ∨
      (charLocs '(' ops ≠ [] ∧
        ¬ ((charLocs '(' ops).headD 0 < (charLocs ')' ops).headD 0))) :
    combine_terms E terms ops = .unbalanced := by
  rcases hcond with hcnt | ⟨hne, hord⟩
  · exact combine_unbalanced_count E terms ops hlen h2 hcnt
  · by_cases hcnt : (charLocs '(' ops).length = (charLocs ')' ops).length
    · exact combine_unbalanced_order E terms ops hlen h2 hcnt hne hord
    · exact combine_unbalanced_count E terms ops hlen h2 hcnt

/-- Witness for C3 at a concrete input: `['(', '+', '']` has one token
containing `'('` and none containing `')'`. -/
theorem C3_unbalanced_error_witness :
    combine_terms ratEngine [1, 2] [['('], ['+'], []] = .unbalanced :=
  C3_unbalanced_error ratEngine [1, 2] [['('], ['+'], []] (by decide) (by decide)
    (Or.inl (by decide))

/-- C10: with more than one term (under the length invariant), an
operator sequence containing no grouping mark and no token equal to
`'^'`, `'*'`, `'/'`, `'+'` or `'-'` makes every case of `combine_terms`
fall through: the function returns Python's `None` — no error is raised
and no combined Term is produced. -/
theorem C10_fallthrough_none {α : Type} (E : Engine α) (terms : List α) (ops : List Tok)
    (hlen : ops.length = terms.length + 1) (h2 : 2 ≤ terms.length)
    (hmarks : ∀ t ∈ ops, '(' ∉ t ∧ ')' ∉ t)
    (hcaret : ['^'] ∉ ops) (hmul : ['*'] ∉ ops) (hdiv : ['/'] ∉ ops)
    (hadd : ['+'] ∉ ops) (hsub : ['-'] ∉ ops) :
    combine_terms E terms ops = .none := by
  have hlp : charLocs '(' ops = [] := charLocs_eq_nil (fun t ht => (hmarks t ht).1)
  have hrp : charLocs ')' ops = [] := charLocs_eq_nil (fun t ht => (hmarks t ht).2)
  exact combine_fallthrough E terms ops hlen h2 hlp hrp hcaret hmul hdiv hadd hsub

/-- Witness for C10 at a concrete input: an interior empty-string token
leaves no case to fire. -/
theorem C10_fallthrough_none_witness :
    combine_terms ratEngine [1, 2] [[], [], []] = .none :=
  C10_fallthrough_none ratEngine [1, 2] [[], [], []] (by decide) (by decide) (by decide)
    (by decide) (by decide) (by decide) (by decide) (by decide)

/-! ### Claim C1: operator precedence -/

/-- C1: `combine_terms` realizes standard precedence with left-to-right
tie-breaking.  Concretely, terms `[2, 3, 4]` with operators
`['', '+', '*', '']` combine to `14`; and in general (no grouping marks,
no `'^'` token) the leftmost `'*'` (when it precedes any `'/'`), or the
leftmost `'/'` (when it precedes any `'*'`), is applied before any `'+'`
or `'-'`: the very next reduction `combine_terms` performs merges the
two terms adjacent to that multiplication/division token. -/
theorem C1_precedence :
    combine_terms ratEngine [2, 3, 4] [[], ['+'], ['*'], []] = .ok 14 ∧
    (∀ (α : Type) (E : Engine α) (terms : List α) (ops : List Tok),
      ops.length = terms.length + 1 → 2 ≤ terms.length →
      (∀ t ∈ ops, '(' ∉ t ∧ ')' ∉ t) → ['^'] ∉ ops →
      ((['*'] ∈ ops ∧ ['/'] ∈ ops ∧ pyIndexOf ['*'] ops < pyIndexOf ['/'] ops) ∨
        (['*'] ∈ ops ∧ ['/'] ∉ ops)) →
      combine_terms E terms ops =
        match pyMerge E.mul (pyIndexOf ['*'] ops) terms with
        | some ts => combine_terms E ts (ops.eraseIdx (pyIndexOf ['*'] ops))
        | none => .indexErr) ∧
    (∀ (α : Type) (E : Engine α) (terms : List α) (ops : List Tok),
      ops.length = terms.length + 1 → 2 ≤ terms.length →
      (∀ t ∈ ops, '(' ∉ t ∧ ')' ∉ t) → ['^'] ∉ ops →
      ((['*'] ∈ ops ∧ ['/'] ∈ ops ∧ pyIndexOf ['/'] ops < pyIndexOf ['*'] ops) ∨
        (['/'] ∈ ops ∧ ['*'] ∉ ops)) →
      combine_terms E terms ops =
        match pyMerge E.div (pyIndexOf ['/'] ops) terms with
        | some ts => combine_terms E ts (ops.eraseIdx (pyIndexOf ['/'] ops))
        | none => .indexErr) := by
  refine ⟨?_, ?_, ?_⟩
  · simp [combine_terms, charLocs, pyIndexOf, pyMerge, ratEngine]
    norm_num
  · intro α E terms ops hlen h2 hmarks hcaret hcond
    have hlp : charLocs '(' ops = [] := charLocs_eq_nil (fun t ht => (hmarks t ht).1)
    have hrp : charLocs ')' ops = [] := charLocs_eq_nil (fun t ht => (hmarks t ht).2)
    exact combine_mul_step E terms ops hlen h2 hlp hrp hcaret hcond
  · intro α E terms ops hlen h2 hmarks hcaret hcond
    have hlp : charLocs '(' ops = [] := charLocs_eq_nil (fun t ht => (hmarks t ht).1)
    have hrp : charLocs ')' ops = [] := charLocs_eq_nil (fun t ht => (hmarks t ht).2)
    have hmulcond : ¬ ((['*'] ∈ ops ∧ ['/'] ∈ ops ∧ pyIndexOf ['*'] ops < pyIndexOf ['/'] ops) ∨
        (['*'] ∈ ops ∧ ['/'] ∉ ops)) := by
      rcases hcond with ⟨hm, hd, hlt⟩ | ⟨hd, hm⟩
      · rintro (⟨_, _, hlt'⟩ | ⟨_, hd'⟩)
        · omega
        · exact hd' hd
      · rintro (⟨hm', _, _⟩ | ⟨hm', _⟩)
        · exact hm hm'
        · exact hm hm'
    exact combine_div_step E terms ops hlen h2 hlp hrp hcaret hmulcond hcond

/-- Witness for C1: the concrete scenario, plus the general clauses
instantiated at `6 - 3 * 4` (the `'*'` fires before the `'-'`) and at
`8 / 2 + 1` (the `'/'` fires before the `'+'`). -/
theorem C1_precedence_witness :
    combine_terms ratEngine [2, 3, 4] [[], ['+'], ['*'], []] = .ok 14 ∧
    combine_terms ratEngine [6, 3, 4] [[], ['-'], ['*'], []] =
      (match pyMerge ratEngine.mul (pyIndexOf ['*'] [[], ['-'], ['*'], []]) [6, 3, 4] with
        | some ts => combine_terms ratEngine ts
            ([[], ['-'], ['*'], []].eraseIdx (pyIndexOf ['*'] [[], ['-'], ['*'], []]))
        | none => .indexErr) ∧
    combine_terms ratEngine [8, 2, 1] [[], ['/'], ['+'], []] =
      (match pyMerge ratEngine.div (pyIndexOf ['/'] [[], ['/'], ['+'], []]) [8, 2, 1] with
        | some ts => combine_terms ratEngine ts
            ([[], ['/'], ['+'], []].eraseIdx (pyIndexOf ['/'] [[], ['/'], ['+'], []]))
        | none => .indexErr) :=
  ⟨C1_precedence.1,
   C1_precedence.2.1 ℚ ratEngine [6, 3, 4] [[], ['-'], ['*'], []] (by decide) (by decide)
     (by decide) (by decide) (Or.inr (by decide)),
   C1_precedence.2.2 ℚ ratEngine [8, 2, 1] [[], ['/'], ['+'], []] (by decide) (by decide)
     (by decide) (by decide) (Or.inr (by decide))⟩

/-! ### Claim C7: the parallel-array invariant -/

theorem zero_clean_inv {α : Type} (isZ : α → Bool) :
    ∀ (u r : List α) (ops : List Tok), u.length = r.length → ops.length = u.length + 1 →
      (zero_clean isZ u r ops).2.2.length = (zero_clean isZ u r ops).1.length + 1 ∧
      (zero_clean isZ u r ops).1.length = (zero_clean isZ u r ops).2.1.length := by
  intro u
  induction u with
  | nil =>
      intro r ops h1 h2
      simp only [zero_clean]
      simp at h1 h2 ⊢
      omega
  | cons x us ih =>
      intro r ops h1 h2
      cases r with
      | nil => simp at h1
      | cons rv rs =>
          cases ops with
          | nil => simp at h2
          | cons op ops' =>
              have hrec := ih rs ops' (by simpa using h1) (by simpa using h2)
              simp only [zero_clean]
              cases hz : zero_clean isZ us rs ops' with
              | mk us' rest =>
                  cases rest with
                  | mk rs' ops'' =>
                      rw [hz] at hrec
                      simp only at hrec
                      by_cases hzx : isZ x
                      · simp [hzx]
                        omega
                      · simp [hzx]
                        omega

theorem make_inv {α : Type} (isZ : α → Bool) (u r : List α) (ops : List Tok)
    (e : Expression α) (h : Expression.make isZ u r ops = some e) : ExpressionInv e := by
  unfold Expression.make at h
  by_cases hc : ops.length = u.length + 1 ∧ u.length = r.length
  · rw [if_pos hc] at h
    have hinv := zero_clean_inv isZ u r ops hc.2 hc.1
    cases hz : zero_clean isZ u r ops with
    | mk u' rest =>
        cases rest with
        | mk r' ops' =>
            rw [hz] at h hinv
            simp only [Option.some.injEq] at h
            subst h
            exact ⟨hinv.1, hinv.2⟩
  · rw [if_neg hc] at h
    simp at h

/-- C7: the parallel-array invariant
`len(operations) = len(unreduced) + 1 = len(reduced) + 1` holds for
every Expression the constructor returns, is preserved by zero-pruning
on aligned triples, holds for the output of `simplify`, and holds for
the output of every closure operator (which routes through the
constructor). -/
theorem C7_parallel_invariant :
    (∀ (α : Type) (isZ : α → Bool) (u r : List α) (ops : List Tok) (e : Expression α),
      Expression.make isZ u r ops = some e → ExpressionInv e) ∧
    (∀ (α : Type) (isZ : α → Bool) (u r : List α) (ops : List Tok),
      u.length = r.length → ops.length = u.length + 1 →
      (zero_clean isZ u r ops).2.2.length = (zero_clean isZ u r ops).1.length + 1 ∧
      (zero_clean isZ u r ops).1.length = (zero_clean isZ u r ops).2.1.length) ∧
    (∀ (α : Type) (E : Engine α) (e e' : Expression α),
      Expression.simplify E e = some e' → ExpressionInv e') ∧
    (∀ (α : Type) (isZ : α → Bool) (p q m : Expression α),
      Expression.addOp isZ p q = some m → ExpressionInv m) ∧
    (∀ (α : Type) (isZ : α → Bool) (p q m : Expression α),
      Expression.subOp isZ p q = some m → ExpressionInv m) ∧
    (∀ (α : Type) (isZ : α → Bool) (p q m : Expression α),
      Expression.mulOp isZ p q = some m → ExpressionInv m) ∧
    (∀ (α : Type) (isZ : α → Bool) (p q m : Expression α),
      Expression.divOp isZ p q = some m → ExpressionInv m) ∧
    (∀ (α : Type) (isZ : α → Bool) (p q m : Expression α),
      Expression.powOp isZ p q = some m → ExpressionInv m) := by
  refine ⟨?_, ?_, ?_, ?_, ?_, ?_, ?_, ?_⟩
  · intro α isZ u r ops e h
    exact make_inv isZ u r ops e h
  · intro α isZ u r ops h1 h2
    exact zero_clean_inv isZ u r ops h1 h2
  · intro α E e e' h
    unfold Expression.simplify at h
    cases hu : combine_terms E e.unreduced_terms e.operations with
    | ok uv =>
        cases hr : combine_terms E e.reduced_terms e.operations with
        | ok rv =>
            rw [hu, hr] at h
            simp only [Option.some.injEq] at h
            subst h
            exact ⟨rfl, rfl⟩
        | invariantErr => rw [hu, hr] at h; simp at h
        | unbalanced => rw [hu, hr] at h; simp at h
        | indexErr => rw [hu, hr] at h; simp at h
        | none => rw [hu, hr] at h; simp at h
    | invariantErr => rw [hu] at h; simp at h
    | unbalanced => rw [hu] at h; simp at h
    | indexErr => rw [hu] at h; simp at h
    | none => rw [hu] at h; simp at h
  · intro α isZ p q m h
    exact make_inv isZ _ _ _ m h
  · intro α isZ p q m h
    exact make_inv isZ _ _ _ m h
  · intro α isZ p q m h
    exact make_inv isZ _ _ _ m h
  · intro α isZ p q m h
    exact make_inv isZ _ _ _ m h
  · intro α isZ p q m h
    exact make_inv isZ _ _ _ m h

/-- Witness for C7: the constructor clause applied to a concrete triple
(it also prunes nothing since the term is non-zero). -/
theorem C7_parallel_invariant_witness :
    ExpressionInv (⟨[(1 : ℚ)], [1], [[], []]⟩ : Expression ℚ) :=
  C7_parallel_invariant.1 ℚ (fun x => x == 0) [1] [1] [[], []]
    ⟨[1], [1], [[], []]⟩ (by decide)

/-! ### Claim C5: zero-pruning -/

theorem getLastD_irrel {α : Type} : ∀ (l : List α) (d d' : α), l ≠ [] →
    l.getLastD d = l.getLastD d' := by
  intro l d d' h
  cases l with
  | nil => exact absurd rfl h
  | cons a as => rw [List.getLastD_cons, List.getLastD_cons]

/-- Closed form of `zero_clean` on aligned triples: keep exactly the
positions with non-zero unreduced term, drop the aligned reduced terms
and the operator at the same index, and always keep the final
operator. -/
theorem zero_clean_spec {α : Type} (isZ : α → Bool) :
    ∀ (u r : List α) (ops : List Tok), u.length = r.length → ops.length = u.length + 1 →
    zero_clean isZ u r ops =
      (u.filter (fun x => !(isZ x)),
       ((u.zip r).filter (fun p => !(isZ p.1))).map Prod.snd,
       ((u.zip ops).filter (fun p => !(isZ p.1))).map Prod.snd ++ [ops.getLastD []]) := by
  intro u
  induction u with
  | nil =>
      intro r ops h1 h2
      cases r with
      | cons rv rs => simp at h1
      | nil =>
          cases ops with
          | nil => simp at h2
          | cons op ops' =>
              have : ops' = [] := by
                have := congrArg id h2
                simp at this
                exact this
              subst this
              simp [zero_clean, List.getLastD]
  | cons x us ih =>
      intro r ops h1 h2
      cases r with
      | nil => simp at h1
      | cons rv rs =>
          cases ops with
          | nil => simp at h2
          | cons op ops' =>
              have hops' : ops'.length = us.length + 1 := by simpa using h2
              have hne : ops' ≠ [] := by
                intro hx
                rw [hx] at hops'
                simp at hops'
              have hrec := ih rs ops' (by simpa using h1) hops'
              simp only [zero_clean, hrec]
              by_cases hzx : isZ x
              · simp only [hzx, if_true, List.filter_cons, List.zip_cons_cons,
                  Bool.not_true]
                simp only [if_false, Bool.false_eq_true]
                rw [List.getLastD_cons]
                rw [getLastD_irrel ops' op [] hne]
              · simp only [hzx, if_false, List.filter_cons, List.zip_cons_cons,
                  Bool.not_false, Bool.false_eq_true, if_true]
                rw [List.getLastD_cons]
                rw [getLastD_irrel ops' op [] hne]
                simp

/-- Modelled from the spec: C5's reading of pruning — remove each
zero-unreduced position together with the aligned reduced term and the
operator immediately FOLLOWING that position.  The renderers interleave
`operations[i]` before `unreduced_terms[i]`, so the operator following
position `i` is `operations[i + 1]`, and `operations[0]` always
stays. -/
def pruneFollowing {α : Type} (isZ : α → Bool) (u r : List α) (ops : List Tok) :
    List α × List α × List Tok :=
  (u.filter (fun x => !(isZ x)),
   ((u.zip r).filter (fun p => !(isZ p.1))).map Prod.snd,
   ops.headD [] :: ((u.zip (ops.drop 1)).filter (fun p => !(isZ p.1))).map Prod.snd)

/-- C5 counterexample: on `unreduced [1, 0, 2]`, `reduced [1, 5, 2]`,
`operations ['', '+', '-', '']`, the code deletes the operator `'+'` at
the zero's own index (rendering `1-2`), while the claim's
following-operator reading predicts deleting `'-'` (rendering `1+2`);
the two operator lists differ. -/
theorem C5_following_op_counterexample :
    zero_clean (fun x => x == (0 : ℚ)) [1, 0, 2] [1, 5, 2] [[], ['+'], ['-'], []] =
      ([1, 2], [1, 2], [[], ['-'], []]) ∧
    pruneFollowing (fun x => x == (0 : ℚ)) [1, 0, 2] [1, 5, 2] [[], ['+'], ['-'], []] =
      ([1, 2], [1, 2], [[], ['+'], []]) ∧
    ([[], ['-'], []] : List Tok) ≠ [[], ['+'], []] :=
  ⟨by decide, by decide, by decide⟩

/-- C5 (amended): zero-pruning, applied eagerly by the constructor,
removes exactly the positions whose unreduced term is the engine's zero
value, deleting the aligned reduced term and the operator at the same
index as the pruned position (the operator immediately preceding it in
rendered order); the final operator always survives, and a position with
non-zero unreduced term is never removed, whatever its reduced
counterpart. -/
theorem C5_prune_amended {α : Type} (isZ : α → Bool) (u r : List α) (ops : List Tok)
    (e : Expression α) (h : Expression.make isZ u r ops = some e) :
    e.unreduced_terms = u.filter (fun x => !(isZ x)) ∧
    e.reduced_terms = ((u.zip r).filter (fun p => !(isZ p.1))).map Prod.snd ∧
    e.operations = ((u.zip ops).filter (fun p => !(isZ p.1))).map Prod.snd ++
      [ops.getLastD []] := by
  unfold Expression.make at h
  by_cases hc : ops.length = u.length + 1 ∧ u.length = r.length
  · rw [if_pos hc] at h
    have hspec := zero_clean_spec isZ u r ops hc.2 hc.1
    cases hz : zero_clean isZ u r ops with
    | mk u' rest =>
        cases rest with
        | mk r' ops' =>
            rw [hz] at h hspec
            simp only [Option.some.injEq] at h
            subst h
            simp only [Prod.mk.injEq] at hspec
            exact ⟨hspec.1, hspec.2.1, hspec.2.2⟩
  · rw [if_neg hc] at h
    simp at h

/-- Witness for C5's amended claim at the counterexample input. -/
theorem C5_prune_amended_witness :
    (⟨[1, 2], [1, 2], [[], ['-'], []]⟩ : Expression ℚ).unreduced_terms =
      [1, 0, 2].filter (fun x => !(x == (0 : ℚ))) ∧
    (⟨[1, 2], [1, 2], [[], ['-'], []]⟩ : Expression ℚ).reduced_terms =
      (([(1 : ℚ), 0, 2].zip [(1 : ℚ), 5, 2]).filter (fun p => !(p.1 == 0))).map Prod.snd ∧
    (⟨[1, 2], [1, 2], [[], ['-'], []]⟩ : Expression ℚ).operations =
      (([(1 : ℚ), 0, 2].zip [[], ['+'], ['-'], ([] : Tok)]).filter
        (fun p => !(p.1 == 0))).map Prod.snd ++ [[[], ['+'], ['-'], ([] : Tok)].getLastD []] :=
  C5_prune_amended (fun x => x == (0 : ℚ)) [1, 0, 2] [1, 5, 2] [[], ['+'], ['-'], []]
    ⟨[1, 2], [1, 2], [[], ['-'], []]⟩ (by decide)

/-! ### Claim C8: Term operations and the expand flag -/

/-- A small free syntax for engine values, used to observe whether
`expand` was applied. -/
inductive FExp where
  | X : FExp
  | C : Int → FExp
  | addF : FExp → FExp → FExp
  | subF : FExp → FExp → FExp
  | mulF : FExp → FExp → FExp
  | divF : FExp → FExp → FExp
  | powF : FExp → FExp → FExp
deriving DecidableEq

/-- Modelled from the spec: the SymbolicEngine's `expand` (sympy's
`expand` is external to the repository) distributes products over sums;
only the fact that it rewrites `(x+1)*(x+1)` to a different syntactic
value matters below. -/
def fexpand : FExp → FExp
  | .mulF (.addF a b) (.addF c d) =>
      .addF (.addF (.mulF a c) (.mulF a d)) (.addF (.mulF b c) (.mulF b d))
  | .mulF (.addF a b) c => .addF (.mulF a c) (.mulF b c)
  | .mulF a (.addF b c) => .addF (.mulF a b) (.mulF a c)
  | e => e

/-- A plain-text printer for `FExp` (the analogue of `str(...)` at the
engine boundary). -/
def fexpPrint : FExp → Tok
  | .X => ['x']
  | .C n => (toString n).toList
  | .addF a b => fexpPrint a ++ ['+'] ++ fexpPrint b
  | .subF a b => fexpPrint a ++ ['-'] ++ fexpPrint b
  | .mulF a b => fexpPrint a ++ ['*'] ++ fexpPrint b
  | .divF a b => fexpPrint a ++ ['/'] ++ fexpPrint b
  | .powF a b => fexpPrint a ++ ['^'] ++ fexpPrint b

/-- The free-syntax engine. -/
def fexpEngine : Engine FExp :=
  ⟨.addF, .subF, .mulF, .divF, .powF, fexpand, fun e => e == .C 0⟩

/-- C8 (code bug): the `expand` flag a Term is constructed with is never
stored, and `if not expand:` in the operator methods tests the always
truthy global sympy function, so every Term operation returns the
expanded engine result regardless of the flag.  First clause: for any
engine and any construction flags, multiplication yields
`Term(expand(a * b))`.  Second clause: concretely, multiplying two Terms
built from `x + 1` with `expand=False` still yields the expanded
product, which differs from the unexpanded `(x+1)*(x+1)` the claim
requires. -/
theorem C8_expand_flag_ignored :
    (∀ (α : Type) (E : Engine α) (latexR strR : α → Tok) (a b : α) (fa fb : Bool),
      Term.mulT E latexR strR (Term.init latexR strR a fa) (Term.init latexR strR b fb) =
        Term.init latexR strR (E.expand (E.mul a b)) true) ∧
    (Term.mulT fexpEngine fexpPrint fexpPrint
        (Term.init fexpPrint fexpPrint (.addF .X (.C 1)) false)
        (Term.init fexpPrint fexpPrint (.addF .X (.C 1)) false)).sympy_term =
      fexpand (.mulF (.addF .X (.C 1)) (.addF .X (.C 1))) ∧
    fexpand (.mulF (.addF .X (.C 1)) (.addF .X (.C 1))) ≠
      .mulF (.addF .X (.C 1)) (.addF .X (.C 1)) := by
  refine ⟨?_, ?_, ?_⟩
  · intro α E latexR strR a b fa fb
    rfl
  · rfl
  · decide

/-! ### Claim C9: the no-solution marker -/

theorem mem_take_append {c : Char} {A : List Char} (B : List Char) {n : Nat}
    (hc : c ∈ A) (hn : A.length ≤ n) : c ∈ (A ++ B).take n := by
  rw [List.take_append_eq_append_take]
  apply List.mem_append_left
  rwa [List.take_of_length_le hn]

theorem str_solution_eq_mem {α : Type} (render : α → Tok) (v : Tok) (s0 : α)
    (rest : List α) :
    '=' ∈ str_solution_from_equation render v ['='] (s0 :: rest) := by
  unfold str_solution_from_equation
  rw [if_neg (by simp)]
  rw [if_pos rfl]
  unfold eqSolutionChunks
  simp only [List.map_cons, List.flatten_cons]
  rw [List.append_assoc (v ++ ['='] ++ [' '] ++ render s0) [',', ' ']]
  apply mem_take_append
  · simp
  · simp [List.length_append]
    omega

theorem str_solution_ineq_mem {α : Type} (render : α → Tok) (v m : Tok) (s0 : α)
    (rest : List α) (hm : m ≠ ['=']) :
    '∊' ∈ str_solution_from_equation render v m (s0 :: rest) := by
  unfold str_solution_from_equation
  rw [if_neg (by simp)]
  rw [if_neg hm]
  unfold strIntervalBuild
  simp only [List.map_cons, List.flatten_cons]
  have hshape : v ++ [' ', '∊', ' '] ++ (render s0 ++ [' ', '∪', ' '] ++
      (rest.map (fun s => render s ++ [' ', '∪', ' '])).flatten) =
      (v ++ [' ', '∊']) ++ ([' '] ++ (render s0 ++ [' ', '∪', ' '] ++
        (rest.map (fun s => render s ++ [' ', '∪', ' '])).flatten)) := by
    simp
  rw [hshape]
  apply mem_take_append
  · simp
  · simp [List.length_append]
    omega

theorem latex_solution_eq_mem {α : Type} (render : α → Tok) (v : Tok) (s0 : α)
    (rest : List α) :
    '=' ∈ latex_solution_from_equation render v ['='] (s0 :: rest) := by
  unfold latex_solution_from_equation
  rw [if_neg (by simp)]
  rw [if_pos rfl]
  have hmem : '=' ∈ (eqSolutionChunks render v ['='] (s0 :: rest)).take
      ((eqSolutionChunks render v ['='] (s0 :: rest)).length - 2) := by
    unfold eqSolutionChunks
    simp only [List.map_cons, List.flatten_cons]
    rw [List.append_assoc (v ++ ['='] ++ [' '] ++ render s0) [',', ' ']]
    apply mem_take_append
    · simp
    · simp [List.length_append]
      omega
  rw [if_neg (fun hz => by rw [hz] at hmem; simp at hmem)]
  exact hmem

theorem latex_solution_ineq_mem {α : Type} (render : α → Tok) (v m : Tok) (s0 : α)
    (rest : List α) (hm : m ≠ ['=']) :
    '\\' ∈ latex_solution_from_equation render v m (s0 :: rest) := by
  unfold latex_solution_from_equation
  rw [if_neg (by simp)]
  rw [if_neg hm]
  have hmem : '\\' ∈ (latexIntervalBuild render v (s0 :: rest)).take
      ((latexIntervalBuild render v (s0 :: rest)).length - 6) := by
    unfold latexIntervalBuild
    have hsplit : (" \\in ".toList : List Char) = [' ', '\\'] ++ ['i', 'n', ' '] := rfl
    rw [hsplit]
    rw [← List.append_assoc v [' ', '\\'] ['i', 'n', ' ']]
    rw [List.append_assoc (v ++ [' ', '\\']) ['i', 'n', ' ']]
    apply mem_take_append
    · simp
    · simp only [List.map_cons, List.flatten_cons]
      simp [List.length_append]
      omega
  rw [if_neg (fun hz => by rw [hz] at hmem; simp at hmem)]
  exact hmem

/-- C9: an equation whose solving yields the empty solution list renders
(plain and typeset) as the literal `'No solution'` marker, and any
non-empty solution list renders to text that differs from that marker:
the `'='` branch always contains the character `'='`, the inequality
branch always contains `'∊'` (plain) or `'\'` (typeset), none of which
occur in `'No solution'`. -/
theorem C9_no_solution_marker :
    (∀ (α : Type) (render : α → Tok) (v m : Tok),
      str_solution_from_equation render v m [] = "No solution".toList) ∧
    (∀ (α : Type) (render : α → Tok) (v m : Tok),
      latex_solution_from_equation render v m [] = "No solution".toList) ∧
    (∀ (α : Type) (render : α → Tok) (v : Tok) (s0 : α) (rest : List α),
      str_solution_from_equation render v ['='] (s0 :: rest) ≠ "No solution".toList) ∧
    (∀ (α : Type) (render : α → Tok) (v m : Tok) (s0 : α) (rest : List α), m ≠ ['='] →
      str_solution_from_equation render v m (s0 :: rest) ≠ "No solution".toList) ∧
    (∀ (α : Type) (render : α → Tok) (v : Tok) (s0 : α) (rest : List α),
      latex_solution_from_equation render v ['='] (s0 :: rest) ≠ "No solution".toList) ∧
    (∀ (α : Type) (render : α → Tok) (v m : Tok) (s0 : α) (rest : List α), m ≠ ['='] →
      latex_solution_from_equation render v m (s0 :: rest) ≠ "No solution".toList) := by
  refine ⟨?_, ?_, ?_, ?_, ?_, ?_⟩
  · intro α render v m
    simp [str_solution_from_equation]
  · intro α render v m
    simp [latex_solution_from_equation]
  · intro α render v s0 rest h
    have hmem := str_solution_eq_mem render v s0 rest
    rw [h] at hmem
    revert hmem
    decide
  · intro α render v m s0 rest hm h
    have hmem := str_solution_ineq_mem render v m s0 rest hm
    rw [h] at hmem
    revert hmem
    decide
  · intro α render v s0 rest h
    have hmem := latex_solution_eq_mem render v s0 rest
    rw [h] at hmem
    revert hmem
    decide
  · intro α render v m s0 rest hm h
    have hmem := latex_solution_ineq_mem render v m s0 rest hm
    rw [h] at hmem
    revert hmem
    decide

/-- Witness for C9: the inequality clause instantiated at a one-element
solution list with the `'<'` sign. -/
theorem C9_no_solution_marker_witness :
    str_solution_from_equation (fun _ : ℚ => ['s']) ['x'] ['<'] [3] ≠
      "No solution".toList :=
  C9_no_solution_marker.2.2.2.1 ℚ (fun _ : ℚ => ['s']) ['x'] ['<'] 3 [] (by decide)

/-! ### Claim C6: sign normalization in the renderers -/

theorem replacePair_no_occur (p q : Char) (rep : Tok) :
    ∀ (n : Nat) (s : Tok), s.length ≤ n → occursPair p q s = false →
      replacePair p q rep s = s := by
  intro n
  induction n with
  | zero =>
      intro s hs _
      cases s with
      | nil => rfl
      | cons c cs => simp at hs
  | succ m ih =>
      intro s hs hocc
      cases s with
      | nil => rfl
      | cons c cs =>
          cases cs with
          | nil => rfl
          | cons d cs' =>
              simp only [occursPair, Bool.or_eq_false_iff, Bool.and_eq_false_iff] at hocc
              have hnot : ¬ (c = p ∧ d = q) := by
                rcases hocc.1 with h | h
                · intro hcon
                  rw [hcon.1] at h
                  simp at h
                · intro hcon
                  rw [hcon.2] at h
                  simp at h
              simp only [replacePair, if_neg hnot]
              have := ih (d :: cs') (by simp at hs ⊢; omega) (by
                have := hocc.2
                simpa [occursPair] using this)
              rw [this]

/-- C6 counterexample: the Expression with terms rendered `'1'`, `'-3'`
and interior operator token `'++'` renders (plain) to `'1+-3'`: the
single pass of the four rewrites leaves the substring `'+-'` in the
output, and applying the pass again changes the string — the four
rewrites are not iterated to a fixpoint. -/
theorem C6_fixpoint_counterexample :
    str_question_from_expression id
        ⟨[['1'], ['-', '3']], [['1'], ['-', '3']], [[], ['+', '+'], []]⟩ = "1+-3".toList ∧
    occursPair '+' '-' ("1+-3".toList) = true ∧
    cullSigns ("1+-3".toList) ≠ "1+-3".toList :=
  ⟨by decide, by decide, by decide⟩

/-- C6 (amended): the renderers apply the four rewrites `'+-'→'-'`,
`'-+'→'-'`, `'--'→'+'`, `'++'→'+'` once each, in exactly that order — a
single pass, not a loop to fixpoint.  Re-applying the four rules to an
already-normalized string (one containing none of the four substrings)
is a no-op; and on simple sign pairs the single pass suffices: the
rendering of `'a'` `'+'` `'-b'` normalizes to `'a-b'`, which contains
none of the four substrings. -/
theorem C6_sign_normalization_amended :
    (∀ s : Tok, occursPair '+' '-' s = false → occursPair '-' '+' s = false →
      occursPair '-' '-' s = false → occursPair '+' '+' s = false →
      cullSigns s = s) ∧
    str_question_from_expression id
        ⟨[['a'], ['-', 'b']], [['a'], ['-', 'b']], [[], ['+'], []]⟩ = "a-b".toList ∧
    (occursPair '+' '-' ("a-b".toList) = false ∧ occursPair '-' '+' ("a-b".toList) = false ∧
      occursPair '-' '-' ("a-b".toList) = false ∧
      occursPair '+' '+' ("a-b".toList) = false) := by
  refine ⟨?_, by decide, by decide⟩
  intro s h1 h2 h3 h4
  unfold cullSigns
  rw [replacePair_no_occur '+' '-' ['-'] s.length s (le_refl _) h1]
  rw [replacePair_no_occur '-' '+' ['-'] s.length s (le_refl _) h2]
  rw [replacePair_no_occur '-' '-' ['+'] s.length s (le_refl _) h3]
  rw [replacePair_no_occur '+' '+' ['+'] s.length s (le_refl _) h4]

/-- Witness for C6's amended claim: the no-op clause at a normalized
string. -/
theorem C6_sign_normalization_amended_witness :
    cullSigns ("a-b".toList) = "a-b".toList :=
  C6_sign_normalization_amended.1 ("a-b".toList) (by decide) (by decide) (by decide) (by decide)

/-! ### Claim C4: termination and step sizes -/

/-- C4 counterexample: on terms `[1, 2]` with operators
`['(', ')', '']`, the grouping-resolution step recurses on a spliced
term list of the SAME length 2 — a grouping step does not strictly
reduce the term-sequence length by one. -/
theorem C4_group_step_counterexample :
    combine_terms ratEngine [1, 2] [['('], [')'], []] =
      combine_terms ratEngine (groupSpliceTerms 0 1 (1 : ℚ) [1, 2])
        (groupSpliceOps 0 1 [['('], [')'], []]) ∧
    (groupSpliceTerms 0 1 (1 : ℚ) [1, 2]).length = ([1, 2] : List ℚ).length := by
  constructor
  · have hstep := combine_group_some ratEngine [1, 2] [['('], [')'], []] 0 1
      (by decide) (by decide) (by decide) (by decide) (by decide) (by decide) (by decide)
    rw [hstep]
    have hsubt : groupSubTerms 0 1 [(1 : ℚ), 2] = [1] := by decide
    have hsubo : groupSubOps 0 1 [['('], [')'], []] = [[], []] := by decide
    rw [hsubt, hsubo]
    rw [combine_single ratEngine 1 [[], []] (by decide)]
  · decide

/-- C4 (amended): `combine_terms` terminates, and its recursive steps
decrease the lexicographic measure (grouping-mark characters, term
count): every arithmetic step (`^`, `*`, `/`, `+`, `-`) removes exactly
one term (clauses 1 and 4, the latter stated on the exponent step of
`combine_terms` itself), while every grouping step strictly decreases
the number of grouping-mark characters in the operator list (clauses 2
and 3) — but need not shrink the term list, as the counterexample
shows. -/
theorem C4_termination_amended :
    (∀ (α : Type) (f : α → α → α) (loc : Nat) (terms ts : List α),
      pyMerge f loc terms = some ts → ts.length + 1 = terms.length) ∧
    (∀ (L c : Nat) (ops : List Tok), L < ops.length → '(' ∈ ops.getD L [] →
      parenWeight (groupSubOps L c ops) < parenWeight ops) ∧
    (∀ (L c : Nat) (ops : List Tok), L < ops.length → '(' ∈ ops.getD L [] →
      parenWeight (groupSpliceOps L c ops) < parenWeight ops) ∧
    (∀ (α : Type) (E : Engine α) (terms ts : List α) (ops : List Tok),
      ops.length = terms.length + 1 → 2 ≤ terms.length →
      charLocs '(' ops = [] → charLocs ')' ops = [] → ['^'] ∈ ops →
      pyMerge E.pow (pyIndexOf ['^'] ops) terms = some ts →
      combine_terms E terms ops = combine_terms E ts (ops.eraseIdx (pyIndexOf ['^'] ops)) ∧
        ts.length + 1 = terms.length) := by
  refine ⟨?_, ?_, ?_, ?_⟩
  · intro α f loc terms ts h
    exact pyMerge_length h
  · intro L c ops h1 h2
    exact groupSubOps_weight_lt L c ops h1 h2
  · intro L c ops h1 h2
    exact groupSpliceOps_weight_lt L c ops h1 h2
  · intro α E terms ts ops hlen h2 hlp hrp hcaret hm
    constructor
    · rw [combine_caret_step E terms ops hlen h2 hlp hrp hcaret]
      rw [hm]
    · exact pyMerge_length hm

/-- Witness for C4's amended claim: the arithmetic-step clause at a
concrete merge, and the grouping clause at a concrete operator list. -/
theorem C4_termination_amended_witness :
    ([(3 : ℤ)].length + 1 = [(1 : ℤ), 2].length) ∧
    parenWeight (groupSubOps 0 2 [['('], ['+'], [')']]) < parenWeight [['('], ['+'], [')']] :=
  ⟨C4_termination_amended.1 ℤ (· + ·) 1 [1, 2] [3] (by decide),
   C4_termination_amended.2.1 0 2 [['('], ['+'], [')']] (by decide) (by decide)⟩

/-! ### Claim C2: the closure-operator round trip -/

theorem charLocs_append (c : Char) : ∀ (a b : List Tok),
    charLocs c (a ++ b) = charLocs c a ++ (charLocs c b).map (· + a.length) := by
  intro a
  induction a with
  | nil =>
      intro b
      simp [charLocs]
  | cons t ts ih =>
      intro b
      simp only [List.cons_append, charLocs]
      simp only [List.append_eq]
      rw [ih b]
      simp only [List.map_append, List.map_map, List.append_assoc, List.length_cons]
      have hfun : ((fun x => x + 1) ∘ fun x => x + ts.length) = (fun x => x + (ts.length + 1)) := by
        funext x
        simp [Function.comp]
        omega
      rw [hfun]

theorem getD_append_right {α : Type} : ∀ (a b : List α) (d : α) (i : Nat),
    (a ++ b).getD (a.length + i) d = b.getD i d := by
  intro a
  induction a with
  | nil => intro b d i; simp
  | cons x xs ih =>
      intro b d i
      simp only [List.cons_append, List.length_cons]
      have : xs.length + 1 + i = (xs.length + i) + 1 := by omega
      rw [this, List.getD_cons_succ]
      exact ih b d i

theorem set_append_right {α : Type} : ∀ (a b : List α) (i : Nat) (x : α),
    (a ++ b).set (a.length + i) x = a ++ b.set i x := by
  intro a
  induction a with
  | nil => intro b i x; simp
  | cons y ys ih =>
      intro b i x
      simp only [List.cons_append, List.length_cons]
      have : ys.length + 1 + i = (ys.length + i) + 1 := by omega
      rw [this, List.set_cons_succ]
      rw [ih b i x]

/-- `zero_clean` leaves a triple unchanged when no unreduced term is the
zero value. -/
theorem zero_clean_id {α : Type} (isZ : α → Bool) :
    ∀ (u r : List α) (ops : List Tok), (∀ x ∈ u, isZ x = false) →
      zero_clean isZ u r ops = (u, r, ops) := by
  intro u
  induction u with
  | nil => intro r ops _; rfl
  | cons x us ih =>
      intro r ops h
      cases r with
      | nil => rfl
      | cons rv rs =>
          cases ops with
          | nil => rfl
          | cons op ops' =>
              have hx : isZ x = false := h x (by simp)
              have hrec := ih rs ops' (fun z hz => h z (by simp [hz]))
              simp only [zero_clean, hrec]
              simp [hx]

/-- An `ok` outcome implies the length precondition held. -/
theorem combine_ok_len {α : Type} {E : Engine α} {t : List α} {o : List Tok} {v : α}
    (h : combine_terms E t o = .ok v) : o.length = t.length + 1 := by
  by_contra hc
  rw [combine_invariantErr E t o hc] at h
  exact absurd h (by simp)

/-- Combining `[x, y]` with the operator list `['', '+', '']` applies
the engine's addition once. -/
theorem combine_pair_add {α : Type} (E : Engine α) (x y : α) :
    combine_terms E [x, y] [[], ['+'], []] = .ok (E.add x y) := by
  rw [combine_add_step E [x, y] [[], ['+'], []] rfl (by simp) (by decide) (by decide)
    (by decide) (by decide) (by decide) (by decide)]
  have h1 : pyIndexOf ['+'] [[], ['+'], ([] : Tok)] = 1 := by decide
  rw [h1]
  have h2 : pyMerge E.add 1 [x, y] = some [E.add x y] := by simp [pyMerge]
  rw [h2]
  exact combine_single E (E.add x y) _ (by decide)

theorem mem_chain_ops {n : Nat} {t : Tok}
    (h : t ∈ ([[]] ++ List.replicate n (['+'] : Tok) ++ [[]] : List Tok)) :
    t = [] ∨ t = ['+'] := by
  simp only [List.mem_append, List.mem_singleton, List.mem_replicate] at h
  rcases h with (h | h) | h
  · left; simpa using h
  · right; exact h.2
  · left; exact h

/-- A pure chain of `'+'` operators folds the engine's addition from the
left. -/
theorem combine_add_chain {α : Type} (E : Engine α) :
    ∀ (n : Nat) (t : α) (ts : List α), ts.length = n →
      combine_terms E (t :: ts) ([[]] ++ List.replicate n (['+'] : Tok) ++ [[]]) =
        .ok (ts.foldl E.add t) := by
  intro n
  induction n with
  | zero =>
      intro t ts h
      have hts : ts = [] := List.length_eq_zero.1 h
      subst hts
      simpa using combine_single E t [[], []] (by decide)
  | succ m ih =>
      intro t ts h
      cases ts with
      | nil => simp at h
      | cons u ts' =>
          have hts' : ts'.length = m := by simpa using h
          have hstep := combine_add_step E (t :: u :: ts')
            ([[]] ++ List.replicate (m + 1) (['+'] : Tok) ++ [[]])
            (by simp; omega) (by simp)
            (charLocs_eq_nil (fun tk htk => by
              rcases mem_chain_ops htk with rfl | rfl <;> decide))
            (charLocs_eq_nil (fun tk htk => by
              rcases mem_chain_ops htk with rfl | rfl <;> decide))
            (fun hmem => by rcases mem_chain_ops hmem with h' | h' <;> simp at h')
            (by
              rintro (⟨hm, _⟩ | ⟨hm, _⟩) <;>
                rcases mem_chain_ops hm with h' | h' <;> simp at h')
            (by
              rintro (⟨hm, _⟩ | ⟨hm, _⟩) <;>
                rcases mem_chain_ops hm with h' | h' <;> simp at h')
            (Or.inr ⟨by simp [List.mem_replicate], fun hmem => by
              rcases mem_chain_ops hmem with h' | h' <;> simp at h'⟩)
          rw [hstep]
          have hidx : pyIndexOf ['+'] ([[]] ++ List.replicate (m + 1) (['+'] : Tok) ++ [[]]) = 1 := by
            simp [pyIndexOf, List.replicate_succ]
          rw [hidx]
          have hmerge : pyMerge E.add 1 (t :: u :: ts') = some (E.add t u :: ts') := by
            simp [pyMerge]
          rw [hmerge]
          show combine_terms E (E.add t u :: ts')
              (([[]] ++ List.replicate (m + 1) (['+'] : Tok) ++ [[]]).eraseIdx 1) = _
          have herase : ([[]] ++ List.replicate (m + 1) (['+'] : Tok) ++ [[]]).eraseIdx 1 =
              [[]] ++ List.replicate m (['+'] : Tok) ++ [[]] := by
            simp [List.replicate_succ]
          rw [herase, ih (E.add t u) ts' hts']
          rfl

theorem dropLast_append_singleton {α : Type} (l : List α) (x : α) :
    (l ++ [x]).dropLast = l := by
  simp

theorem take_append_length {α : Type} (a b : List α) (n : Nat) (h : a.length = n) :
    (a ++ b).take n = a := by
  subst h
  exact List.take_left a b

theorem drop_append_length {α : Type} (a b : List α) (n : Nat) (h : a.length = n) :
    (a ++ b).drop n = b := by
  subst h
  exact List.drop_left a b

theorem drop_length_of_eq {α : Type} (l : List α) (n : Nat) (h : l.length = n) :
    l.drop n = [] := by
  subst h
  exact List.drop_length l

theorem take_length_of_eq {α : Type} (l : List α) (n : Nat) (h : l.length = n) :
    l.take n = l := by
  subst h
  exact List.take_length l

/-- `ops[1:-1]` of a `'+'`-chain operator list is the interior `'+'` run. -/
theorem interiorOps_chain (n : Nat) :
    interiorOps ([[]] ++ List.replicate n (['+'] : Tok) ++ [[]]) =
      List.replicate n ['+'] := by
  unfold interiorOps
  have hd : ([[]] ++ List.replicate n (['+'] : Tok) ++ [[]]).drop 1 =
      List.replicate n (['+'] : Tok) ++ [[]] := rfl
  rw [hd, dropLast_append_singleton]

/-- The merged operator list `['('] + [] + [')+('] + interior + [')']`
built by `Expression.__add__` when the left interior is empty,
reassociated. -/
theorem mergedOps_assoc (n : Nat) :
    [['(']] ++ [] ++ [[')', '+', '(']] ++ List.replicate n (['+'] : Tok) ++ [[')']] =
      [['('], [')', '+', '(']] ++ (List.replicate n (['+'] : Tok) ++ [[')']]) := by
  simp only [List.append_nil, List.nil_append, List.cons_append, List.append_assoc]

/-- Evaluation of `Expression.__add__`: with the interior operator
slices and the length precondition given, and no zero unreduced term,
the constructor succeeds and returns the concatenated term lists with
the documented merged operator list. -/
theorem addOp_eval {α : Type} (isZ : α → Bool) (u1 r1 u2 r2 : List α)
    (ops1 ops2 I1 I2 O : List Tok)
    (hI1 : interiorOps ops1 = I1) (hI2 : interiorOps ops2 = I2)
    (hO : [['(']] ++ I1 ++ [[')', '+', '(']] ++ I2 ++ [[')']] = O)
    (hlen1 : O.length = (u1 ++ u2).length + 1)
    (hlen2 : (u1 ++ u2).length = (r1 ++ r2).length)
    (hz : ∀ y ∈ u1 ++ u2, isZ y = false) :
    Expression.addOp isZ ⟨u1, r1, ops1⟩ ⟨u2, r2, ops2⟩ =
      some ⟨u1 ++ u2, r1 ++ r2, O⟩ := by
  unfold Expression.addOp Expression.make
  rw [hI1, hI2, hO]
  rw [if_pos (And.intro hlen1 hlen2)]
  rw [zero_clean_id isZ _ _ _ hz]

/-- A grouping step whose closing-mark scan keeps the `-1` sentinel and
whose sentinel-sliced recursive call violates the length precondition
makes the whole combine fail with the length-assertion outcome. -/
theorem combine_group_far_invariantErr {α : Type} (E : Engine α)
    (terms sub_t : List α) (ops sub_o : List Tok) (L : Nat)
    (hlen : ops.length = terms.length + 1) (h2 : 2 ≤ terms.length)
    (hbal : (charLocs '(' ops).length = (charLocs ')' ops).length)
    (hl : charLocs '(' ops ≠ [])
    (hord : (charLocs '(' ops).headD 0 < (charLocs ')' ops).headD 0)
    (hL : (charLocs '(' ops).getLastD 0 = L)
    (hc : (closestLoc L (charLocs ')' ops)).2 = none)
    (hst : groupSubTerms L (terms.length - 1) terms = sub_t)
    (hso : groupSubOps L (ops.length - 1) ops = sub_o)
    (hbad : sub_o.length ≠ sub_t.length + 1) :
    combine_terms E terms ops = .invariantErr := by
  rw [combine_group_none E terms ops L hlen h2 hbal hl hord hL hc, hst, hso,
    combine_invariantErr E sub_t sub_o hbad]

/-- A successfully resolved grouping step: the sub-combine between the
marks yields a term, and the combine of the spliced outer sequences is
the overall result. -/
theorem combine_group_resolve {α : Type} (E : Engine α)
    (terms sub_t spl_t : List α) (ops sub_o spl_o : List Tok) (L c : Nat)
    (y : α) (res : CRes α)
    (hlen : ops.length = terms.length + 1) (h2 : 2 ≤ terms.length)
    (hbal : (charLocs '(' ops).length = (charLocs ')' ops).length)
    (hl : charLocs '(' ops ≠ [])
    (hord : (charLocs '(' ops).headD 0 < (charLocs ')' ops).headD 0)
    (hL : (charLocs '(' ops).getLastD 0 = L)
    (hc : (closestLoc L (charLocs ')' ops)).2 = some c)
    (hst : groupSubTerms L c terms = sub_t)
    (hso : groupSubOps L c ops = sub_o)
    (hsub : combine_terms E sub_t sub_o = .ok y)
    (hspt : groupSpliceTerms L c y terms = spl_t)
    (hspo : groupSpliceOps L c ops = spl_o)
    (hrest : combine_terms E spl_t spl_o = res) :
    combine_terms E terms ops = res := by
  rw [combine_group_some E terms ops L c hlen h2 hbal hl hord hL hc, hst, hso, hsub]
  have hgoal : combine_terms E (groupSpliceTerms L c y terms)
      (groupSpliceOps L c ops) = res := by
    rw [hspt, hspo]
    exact hrest
  exact hgoal

/-- C2 counterexample: take `p` with the single term `1` and `q` with
10000 terms `1` joined by `'+'`.  Both combine successfully on their
own, and `p + q` builds the documented merged operator sequence; but on
the merged sequence the closing-mark scan rejects the matching `')'` at
distance `10000` (the hard-coded `closest_dist = 10000` bound blocks
it), keeps its `-1` sentinel, slices both lists up to index `-1`, and
the recursive call then fails the length assertion: combining `p + q`
yields the `AssertionError` outcome instead of the engine sum of the
two sub-results. -/
theorem C2_roundtrip_counterexample :
    combine_terms ratEngine [(1 : ℚ)] [[], []] = .ok 1 ∧
    combine_terms ratEngine (List.replicate 10000 (1 : ℚ))
      ([[]] ++ List.replicate 9999 (['+'] : Tok) ++ [[]]) =
      .ok ((List.replicate 9999 (1 : ℚ)).foldl ratEngine.add 1) ∧
    Expression.addOp ratEngine.isZero
        ⟨[(1 : ℚ)], [1], [[], []]⟩
        ⟨List.replicate 10000 (1 : ℚ), List.replicate 10000 1,
          [[]] ++ List.replicate 9999 (['+'] : Tok) ++ [[]]⟩ =
      some ⟨[(1 : ℚ)] ++ List.replicate 10000 1, [(1 : ℚ)] ++ List.replicate 10000 1,
        [['('], [')', '+', '(']] ++ (List.replicate 9999 (['+'] : Tok) ++ [[')']])⟩ ∧
    combine_terms ratEngine ([(1 : ℚ)] ++ List.replicate 10000 1)
      ([['('], [')', '+', '(']] ++ (List.replicate 9999 (['+'] : Tok) ++ [[')']])) =
      .invariantErr ∧
    (∀ x : ℚ, CRes.invariantErr ≠ CRes.ok x) := by
  have hcl : charLocs '(' ([['('], [')', '+', '(']] ++
      (List.replicate 9999 (['+'] : Tok) ++ [[')']])) = [0, 1] := by
    have hrepP : charLocs '(' (List.replicate 9999 (['+'] : Tok) ++ [[')']]) = [] :=
      charLocs_eq_nil (fun t ht => by
        rcases List.mem_append.1 ht with h | h
        · rw [List.eq_of_mem_replicate h]; decide
        · rw [List.mem_singleton.1 h]; decide)
    rw [charLocs_append, hrepP]
    decide
  have hcr : charLocs ')' ([['('], [')', '+', '(']] ++
      (List.replicate 9999 (['+'] : Tok) ++ [[')']])) = [1, 10001] := by
    have hrepC : charLocs ')' (List.replicate 9999 (['+'] : Tok)) = [] :=
      charLocs_eq_nil (fun t ht => by rw [List.eq_of_mem_replicate ht]; decide)
    rw [charLocs_append, charLocs_append, hrepC, List.length_replicate]
    decide
  have hUlen : ([(1 : ℚ)] ++ List.replicate 10000 1).length = 10001 := by
    rw [List.length_append, List.length_replicate]
    rfl
  have hOlen : ([['('], [')', '+', '(']] ++
      (List.replicate 9999 (['+'] : Tok) ++ [[')']])).length = 10002 := by
    rw [List.length_append, List.length_append, List.length_replicate]
    rfl
  refine ⟨?_, ?_, ?_, ?_, ?_⟩
  · exact combine_single ratEngine 1 [[], []] (by decide)
  · rw [show (List.replicate 10000 (1 : ℚ)) = 1 :: List.replicate 9999 1 from rfl]
    exact combine_add_chain ratEngine 9999 1 (List.replicate 9999 1)
      (by rw [List.length_replicate])
  · exact addOp_eval ratEngine.isZero [(1 : ℚ)] [1]
      (List.replicate 10000 1) (List.replicate 10000 1)
      [[], []] ([[]] ++ List.replicate 9999 (['+'] : Tok) ++ [[]])
      [] (List.replicate 9999 ['+'])
      ([['('], [')', '+', '(']] ++ (List.replicate 9999 (['+'] : Tok) ++ [[')']]))
      rfl (interiorOps_chain 9999) (mergedOps_assoc 9999)
      (by rw [hOlen, hUlen]) rfl
      (fun y hy => by
        rcases List.mem_append.1 hy with h | h
        · rw [List.mem_singleton.1 h]; decide
        · rw [List.eq_of_mem_replicate h]; decide)
  · refine combine_group_far_invariantErr ratEngine
      ([(1 : ℚ)] ++ List.replicate 10000 1) (List.replicate 9999 1)
      ([['('], [')', '+', '(']] ++ (List.replicate 9999 (['+'] : Tok) ++ [[')']]))
      ([[]] ++ List.replicate 9999 (['+'] : Tok) ++ [[]]) 1
      (by rw [hOlen, hUlen]) (by rw [hUlen]; decide)
      (by rw [hcl, hcr]; rfl)
      (by rw [hcl]; decide)
      (by rw [hcl, hcr]; decide)
      (by rw [hcl]; rfl)
      (by rw [hcr]; decide)
      ?_ ?_ ?_
    · unfold groupSubTerms
      have hd : ([(1 : ℚ)] ++ List.replicate 10000 1).drop 1 =
          List.replicate 10000 1 := rfl
      rw [hUlen, hd, show (10001 - 1 - 1 : Nat) = 9999 from rfl]
      rw [List.take_replicate, min_eq_left (by norm_num)]
    · unfold groupSubOps
      have hd : ([['('], [')', '+', '(']] ++
          (List.replicate 9999 (['+'] : Tok) ++ [[')']])).drop (1 + 1) =
          List.replicate 9999 (['+'] : Tok) ++ [[')']] := rfl
      rw [hOlen, hd, show (10002 - 1 - (1 + 1) : Nat) = 9999 from rfl]
      rw [take_append_length (List.replicate 9999 (['+'] : Tok)) [[')']] 9999
        (by rw [List.length_replicate])]
      rfl
    · simp only [List.length_cons, List.length_append, List.length_replicate,
        List.length_singleton] <;> omega
  · intro x
    simp

/-- C2 amended: the round trip does hold below the hard-coded distance
bound.  For any engine, any non-zero values, a single-term `p` and a
9999-term `'+'`-chain `q` (the largest chain whose closing mark sits
within the `closest_dist = 10000` bound), `p + q` builds the documented
merged operator list and combining it yields exactly the engine sum of
`combine p` and `combine q`. -/
theorem C2_roundtrip_amended {α : Type} (E : Engine α) (x t : α) (ts : List α)
    (hts : ts.length = 9998)
    (hz : ∀ z ∈ x :: t :: ts, E.isZero z = false) :
    combine_terms E [x] [[], []] = .ok x ∧
    combine_terms E (t :: ts) ([[]] ++ List.replicate 9998 (['+'] : Tok) ++ [[]]) =
      .ok (ts.foldl E.add t) ∧
    Expression.addOp E.isZero ⟨[x], [x], [[], []]⟩
        ⟨t :: ts, t :: ts, [[]] ++ List.replicate 9998 (['+'] : Tok) ++ [[]]⟩ =
      some ⟨[x] ++ t :: ts, [x] ++ t :: ts,
        [['('], [')', '+', '(']] ++ (List.replicate 9998 (['+'] : Tok) ++ [[')']])⟩ ∧
    combine_terms E ([x] ++ t :: ts)
      ([['('], [')', '+', '(']] ++ (List.replicate 9998 (['+'] : Tok) ++ [[')']])) =
      .ok (E.add x (ts.foldl E.add t)) := by
  have hcl : charLocs '(' ([['('], [')', '+', '(']] ++
      (List.replicate 9998 (['+'] : Tok) ++ [[')']])) = [0, 1] := by
    have hrepP : charLocs '(' (List.replicate 9998 (['+'] : Tok) ++ [[')']]) = [] :=
      charLocs_eq_nil (fun tk htk => by
        rcases List.mem_append.1 htk with h | h
        · rw [List.eq_of_mem_replicate h]; decide
        · rw [List.mem_singleton.1 h]; decide)
    rw [charLocs_append, hrepP]
    decide
  have hcr : charLocs ')' ([['('], [')', '+', '(']] ++
      (List.replicate 9998 (['+'] : Tok) ++ [[')']])) = [1, 10000] := by
    have hrepC : charLocs ')' (List.replicate 9998 (['+'] : Tok)) = [] :=
      charLocs_eq_nil (fun tk htk => by rw [List.eq_of_mem_replicate htk]; decide)
    rw [charLocs_append, charLocs_append, hrepC, List.length_replicate]
    decide
  have hUlen : ([x] ++ t :: ts).length = 10000 := by
    simp only [List.length_append, List.length_cons, List.length_nil, hts] <;> omega
  have hOlen : ([['('], [')', '+', '(']] ++
      (List.replicate 9998 (['+'] : Tok) ++ [[')']])).length = 10001 := by
    rw [List.length_append, List.length_append, List.length_replicate]
    rfl
  refine ⟨?_, ?_, ?_, ?_⟩
  · exact combine_single E x [[], []] rfl
  · exact combine_add_chain E 9998 t ts hts
  · exact addOp_eval E.isZero [x] [x] (t :: ts) (t :: ts)
      [[], []] ([[]] ++ List.replicate 9998 (['+'] : Tok) ++ [[]])
      [] (List.replicate 9998 ['+'])
      ([['('], [')', '+', '(']] ++ (List.replicate 9998 (['+'] : Tok) ++ [[')']]))
      rfl (interiorOps_chain 9998) (mergedOps_assoc 9998)
      (by rw [hOlen, hUlen]) rfl
      (fun y hy => hz y hy)
  · refine combine_group_resolve E
      ([x] ++ t :: ts) (t :: ts) [x, ts.foldl E.add t]
      ([['('], [')', '+', '(']] ++ (List.replicate 9998 (['+'] : Tok) ++ [[')']]))
      ([[]] ++ List.replicate 9998 (['+'] : Tok) ++ [[]])
      [['('], [')', '+'], []]
      1 10000 (ts.foldl E.add t) (.ok (E.add x (ts.foldl E.add t)))
      (by rw [hOlen, hUlen]) (by rw [hUlen]; decide)
      (by rw [hcl, hcr]; rfl)
      (by rw [hcl]; decide)
      (by rw [hcl, hcr]; decide)
      (by rw [hcl]; rfl)
      (by rw [hcr]; decide)
      ?_ ?_ (combine_add_chain E 9998 t ts hts) ?_ ?_ ?_
    · unfold groupSubTerms
      have hd : ([x] ++ t :: ts).drop 1 = t :: ts := rfl
      rw [hd, show (10000 - 1 : Nat) = 9999 from rfl]
      exact take_length_of_eq (t :: ts) 9999 (by rw [List.length_cons, hts])
    · unfold groupSubOps
      have hd : ([['('], [')', '+', '(']] ++
          (List.replicate 9998 (['+'] : Tok) ++ [[')']])).drop (1 + 1) =
          List.replicate 9998 (['+'] : Tok) ++ [[')']] := rfl
      rw [hd, show (10000 - (1 + 1) : Nat) = 9998 from rfl]
      rw [take_append_length (List.replicate 9998 (['+'] : Tok)) [[')']] 9998
        (by rw [List.length_replicate])]
      rfl
    · unfold groupSpliceTerms pyDelSlice pyInsert
      rw [show (max 1 10000 : Nat) = 10000 from rfl,
        drop_length_of_eq ([x] ++ t :: ts) 10000 hUlen]
      rfl
    · have hdrop : ([['('], [')', '+', '(']] ++
          (List.replicate 9998 (['+'] : Tok) ++ [[')']])).drop 10000 = [[')']] :=
        (congrArg (fun l => List.drop 10000 l)
          ((List.append_assoc [['('], [')', '+', '(']]
            (List.replicate 9998 (['+'] : Tok)) [[')']]).symm)).trans
          (drop_append_length
            ([['('], [')', '+', '(']] ++ List.replicate 9998 (['+'] : Tok)) [[')']]
            10000 (by rw [List.length_append, List.length_replicate]; rfl))
      have hdel : pyDelSlice (1 + 1) 10000
          ([['('], [')', '+', '(']] ++ (List.replicate 9998 (['+'] : Tok) ++ [[')']])) =
          [['('], [')', '+', '('], [')']] := by
        unfold pyDelSlice
        rw [show (max (1 + 1) 10000 : Nat) = 10000 from rfl, hdrop]
        rfl
      unfold groupSpliceOps groupSpliceOps1
      rw [hdel]
      rfl
    · exact combine_group_resolve E
        [x, ts.foldl E.add t] [x] [x, ts.foldl E.add t]
        [['('], [')', '+'], []] [[], []] [[], ['+'], []]
        0 1 x (.ok (E.add x (ts.foldl E.add t)))
        rfl (Nat.le_refl 2) rfl (by decide) (by decide) rfl (by decide)
        rfl rfl (combine_single E x [[], []] rfl) rfl rfl
        (combine_pair_add E x (ts.foldl E.add t))

/-- Witness for the amended C2 round trip: over ℚ with all terms `1`,
combining the merged expression of a 1-term `p` and a 9999-term `q`
yields the engine sum of the two sub-combines. -/
theorem C2_roundtrip_amended_witness :
    combine_terms ratEngine ([(1 : ℚ)] ++ 1 :: List.replicate 9998 1)
      ([['('], [')', '+', '(']] ++ (List.replicate 9998 (['+'] : Tok) ++ [[')']])) =
      .ok (ratEngine.add 1 ((List.replicate 9998 (1 : ℚ)).foldl ratEngine.add 1)) :=
  (C2_roundtrip_amended ratEngine 1 1 (List.replicate 9998 1)
    (by rw [List.length_replicate])
    (fun z hzm => by
      rcases List.mem_cons.1 hzm with rfl | h
      · decide
      · rcases List.mem_cons.1 h with rfl | h2
        · decide
        · rw [List.eq_of_mem_replicate h2]; decide)).2.2.2
